import Mathlib

/-!
Verification development for the unified-diff context-reduction engine of
git-webui (src/bookmarklet/codex.js, the bookmarklet using
reduceDiffContext), together with the host-state discovery helper
findFirstParentWhere.

All algorithmic definitions below are shallow embeddings translated from the
JavaScript source.  Strings are modelled as `List Char`; JavaScript array
loops become structural recursions (with an explicit fuel argument where the
loop advances an index by more than one per step; the fuel is always
initialized to a provably sufficient bound).  Regular-expression matching in
the source is deterministic on its inputs (every quantifier is followed by a
character it can never match), so it is embedded as a direct
maximal-munch scanner.
-/

namespace Codex

/-! ### Character classes used by the JavaScript regexes

JavaScript library semantics embedded here:
the regex class backslash-s matches the WhiteSpace and LineTerminator code
points; the regex class backslash-d matches exactly the ASCII digits; the
regex dot (used for the trailing section group) matches everything except
the four LineTerminator code points.
-/

def isJsWs (c : Char) : Bool :=
  let n := c.toNat
  n == 0x9 || n == 0xA || n == 0xB || n == 0xC || n == 0xD || n == 0x20 ||
  n == 0xA0 || n == 0x1680 || (0x2000 ≤ n && n ≤ 0x200A) || n == 0x2028 ||
  n == 0x2029 || n == 0x202F || n == 0x205F || n == 0x3000 || n == 0xFEFF

def isLineTerm (c : Char) : Bool :=
  let n := c.toNat
  n == 0xA || n == 0xD || n == 0x2028 || n == 0x2029

def isDigitCh (c : Char) : Bool :=
  48 ≤ c.toNat && c.toNat ≤ 57

/-- Value of a digit string, as computed by JavaScript parseInt(s, 10) on an
all-digit string (the inputs here are short enough that IEEE doubles are
exact). -/
def digitsToNat (ds : List Char) : Nat :=
  ds.foldl (fun a c => a * 10 + (c.toNat - 48)) 0

/-- Maximal munch for one capture group matching one-or-more digits:
fails when no digit is present, otherwise consumes the longest digit run. -/
def parseDigits (l : List Char) : Option (Nat × List Char) :=
  let ds := l.takeWhile isDigitCh
  if ds.isEmpty then none else some (digitsToNat ds, l.dropWhile isDigitCh)

/-- One-or-more whitespace: the regex piece backslash-s-plus. -/
def skipWs1 : List Char → Option (List Char)
  | [] => none
  | c :: rest => if isJsWs c then some (rest.dropWhile isJsWs) else none

/-- The literal piece "@@". -/
def expectTwoAt : List Char → Option (List Char)
  | '@' :: '@' :: rest => some rest
  | _ => none

def expectCh (c : Char) : List Char → Option (List Char)
  | [] => none
  | c2 :: rest => if c2 = c then some rest else none

/-- The optional group matching a comma followed by one-or-more digits;
absent, it defaults to 1 and consumes nothing (in particular a comma
followed by a non-digit is left in place, which then makes the subsequent
whitespace piece fail, exactly as the regex does). -/
def optCommaDigits : List Char → Nat × List Char
  | ',' :: rest =>
    (match parseDigits rest with
     | some (n, rest2) => (n, rest2)
     | none => (1, ',' :: rest))
  | l => (1, l)

/-- The shared front of both hunk-header regexes in the source:
at-at, ws+, minus, digits, optional comma-digits, ws+, plus, digits,
optional comma-digits, ws+, at-at; returns the four numbers and the
remaining characters of the line. -/
def matchHunkPre (l : List Char) : Option (Nat × Nat × Nat × Nat × List Char) := do
  let r1 ← expectTwoAt l
  let r2 ← skipWs1 r1
  let r3 ← expectCh '-' r2
  let (os, r4) ← parseDigits r3
  let (ol, r5) := optCommaDigits r4
  let r6 ← skipWs1 r5
  let r7 ← expectCh '+' r6
  let (ns, r8) ← parseDigits r7
  let (nl, r9) := optCommaDigits r8
  let r10 ← skipWs1 r9
  let r11 ← expectTwoAt r10
  return (os, ol, ns, nl, r11)

/-- The isHunkHeader test of the source: its regex has no trailing
dot-star-dollar, so it only requires the shared front to match. -/
def isHunkHeaderLine (l : List Char) : Bool :=
  (matchHunkPre l).isSome

structure HunkHeader where
  oldStart : Nat
  oldLen : Nat
  newStart : Nat
  newLen : Nat
  sectionText : List Char
deriving DecidableEq, Repr

/-- parseHunkHeader of the source.  Its regex ends in a dot-star capture
anchored at end of input; the dot cannot match a LineTerminator, so the
whole regex fails (and the source throws the malformed-header error) exactly
when the trailing section contains a LineTerminator code point.  The source
also records the raw line; no later code reads it, so it is omitted here.
The JavaScript field named section is called sectionText here because the
original name is a keyword in Lean. -/
def parseHunkHeader (l : List Char) : Option HunkHeader :=
  match matchHunkPre l with
  | none => none
  | some (os, ol, ns, nl, rest) =>
    if rest.all (fun c => !(isLineTerm c)) then some ⟨os, ol, ns, nl, rest⟩
    else none

/-- Decimal rendering of a natural number, as JavaScript string conversion
produces for the (integral, exactly representable) values that occur here.
The fuel is n + 1, which the lemmas below show is always sufficient. -/
def digitChar (d : Nat) : Char := Char.ofNat (48 + d)

def natToCharsAux : Nat → Nat → List Char
  | 0, _ => []
  | fuel + 1, n =>
    if n < 10 then [digitChar n]
    else natToCharsAux fuel (n / 10) ++ [digitChar (n % 10)]

def natToChars (n : Nat) : List Char := natToCharsAux (n + 1) n

/-- fmtRange of the source: start alone when the length is exactly 1,
otherwise start comma length. -/
def fmtRange (start len : Nat) : List Char :=
  if len = 1 then natToChars start else natToChars start ++ ',' :: natToChars len

/-- formatHunkHeader of the source: a zero length is always rendered
explicitly as start comma zero (the lenIsZero branch). -/
def formatHunkHeader (oldStart oldLen newStart newLen : Nat)
    (sectionText : List Char) : List Char :=
  let oldPart :=
    if oldLen = 0 then natToChars oldStart ++ [',', '0'] else fmtRange oldStart oldLen
  let newPart :=
    if newLen = 0 then natToChars newStart ++ [',', '0'] else fmtRange newStart newLen
  "@@ -".data ++ oldPart ++ " +".data ++ newPart ++ " @@".data ++ sectionText

/-! ### Body-line classification -/

inductive LineKind where
  | ctx
  | add
  | del
  | meta
  | other
deriving DecidableEq, Repr

structure Item where
  type : LineKind
  text : List Char
deriving DecidableEq, Repr

def noNewlineMarker : List Char := "\\ No newline at end of file".data

/-- classifyLine of the source: the no-newline marker test comes first,
then the first character decides; an empty line (whose index-0 access is
undefined in JavaScript) falls through to other. -/
def classifyLine (l : List Char) : Item :=
  if noNewlineMarker.isPrefixOf l then ⟨LineKind.meta, l⟩
  else
    match l with
    | ' ' :: _ => ⟨LineKind.ctx, l⟩
    | '+' :: _ => ⟨LineKind.add, l⟩
    | '-' :: _ => ⟨LineKind.del, l⟩
    | _ => ⟨LineKind.other, l⟩

def oldDelta : LineKind → Nat
  | LineKind.ctx => 1
  | LineKind.del => 1
  | _ => 0

def newDelta : LineKind → Nat
  | LineKind.ctx => 1
  | LineKind.add => 1
  | _ => 0

def isChangeKind : LineKind → Bool
  | LineKind.add => true
  | LineKind.del => true
  | _ => false

/-- The oldBefore / newBefore arrays of trimOneHunk: entry k is the line
counter before processing index k, seeded from the header start value;
the list has one more entry than there are items. -/
def lineBefore (start : Nat) (delta : LineKind → Nat) : List Item → List Nat
  | [] => [start]
  | it :: rest => start :: lineBefore (start + delta it.type) delta rest

/-- The changeIdxs collection loop: indices (counted from the first
argument) of the addition/deletion items. -/
def changeIdxsFrom : Nat → List Item → List Nat
  | _, [] => []
  | i, it :: rest =>
    if isChangeKind it.type then i :: changeIdxsFrom (i + 1) rest
    else changeIdxsFrom (i + 1) rest

/-- The block-grouping loop of trimOneHunk: maximal runs of
index-adjacent change indices, carried as blockStart/blockEnd. -/
def groupRuns : Nat → Nat → List Nat → List (Nat × Nat)
  | bs, be, [] => [(bs, be)]
  | bs, be, i :: rest =>
    if i = be + 1 then groupRuns bs i rest else (bs, be) :: groupRuns i i rest

/-- The left-expansion loop of expandBlock, walking from startIdx - 1 down
to 0 over the reversed list of the items before the block.  On a context
item the counter is incremented, the kept start moves to the current index,
and the loop breaks once the incremented counter reaches the requested
count; meta/other items move the kept start without counting; another
change item stops the loop without moving the kept start. -/
def expandLeftAux (ctxN : Nat) : List Item → Nat → Nat → Nat → Nat
  | [], _, s, _ => s
  | it :: rest, j, s, cnt =>
    match it.type with
    | LineKind.ctx =>
      if cnt + 1 ≥ ctxN then j else expandLeftAux ctxN rest (j - 1) j (cnt + 1)
    | LineKind.add => s
    | LineKind.del => s
    | _ => expandLeftAux ctxN rest (j - 1) j cnt

/-- The right-expansion loop of expandBlock, walking from endIdx + 1 up to
the end of the items, symmetric to the left loop. -/
def expandRightAux (ctxN : Nat) : List Item → Nat → Nat → Nat → Nat
  | [], _, e, _ => e
  | it :: rest, j, e, cnt =>
    match it.type with
    | LineKind.ctx =>
      if cnt + 1 ≥ ctxN then j else expandRightAux ctxN rest (j + 1) j (cnt + 1)
    | LineKind.add => e
    | LineKind.del => e
    | _ => expandRightAux ctxN rest (j + 1) j cnt

def expandBlock (items : List Item) (ctxN startIdx endIdx : Nat) : Nat × Nat :=
  ( expandLeftAux ctxN ((items.take startIdx).reverse) (startIdx - 1) startIdx 0
  , expandRightAux ctxN (items.drop (endIdx + 1)) (endIdx + 1) endIdx 0 )

/-- The source sorts the ranges with a stable comparator on the start
index; embedded as a stable insertion sort (equal starts keep their
original relative order). -/
def insertRange (r : Nat × Nat) : List (Nat × Nat) → List (Nat × Nat)
  | [] => [r]
  | q :: rest => if r.1 ≤ q.1 then r :: q :: rest else q :: insertRange r rest

def sortRanges : List (Nat × Nat) → List (Nat × Nat)
  | [] => []
  | r :: rest => insertRange r (sortRanges rest)

/-- The merge loop of trimOneHunk: a range that starts at or before the
current range's end plus one is absorbed (keeping the current start and
taking the max of the ends), otherwise the current range is emitted. -/
def mergeRangesAux : Nat × Nat → List (Nat × Nat) → List (Nat × Nat)
  | cur, [] => [cur]
  | cur, r :: rest =>
    if r.1 ≤ cur.2 + 1 then mergeRangesAux (cur.1, max cur.2 r.2) rest
    else cur :: mergeRangesAux r rest

def mergeRanges : List (Nat × Nat) → List (Nat × Nat)
  | [] => []
  | r :: rest => mergeRangesAux r rest

/-- Whether the item at a given body index is a change (addition or
deletion) line; used to state the interval invariants. -/
def isChangeAt (items : List Item) (k : Nat) : Bool :=
  match items[k]? with
  | some it => isChangeKind it.type
  | none => false

/-- One output hunk of trimOneHunk before serialization: the recomputed
header fields together with the sliced items. -/
structure TrimmedHunk where
  oldStart : Nat
  oldLen : Nat
  newStart : Nat
  newLen : Nat
  sectionText : List Char
  body : List Item
deriving DecidableEq, Repr

/-- The per-merged-range slice of trimOneHunk: items.slice(s, e + 1),
starts read off the precomputed before-arrays at the slice start, lengths
summed over the slice with context counting on both sides, deletions on
the old side, additions on the new side, meta/other on neither. -/
def segmentHunk (hh : HunkHeader) (items : List Item) (oldB newB : List Nat)
    (r : Nat × Nat) : TrimmedHunk :=
  let segItems := (items.drop r.1).take (r.2 + 1 - r.1)
  ⟨ oldB.getD r.1 0
  , (segItems.map (fun it => oldDelta it.type)).sum
  , newB.getD r.1 0
  , (segItems.map (fun it => newDelta it.type)).sum
  , hh.sectionText
  , segItems ⟩

/-- trimOneHunk of the source after line classification, up to (but not
including) header serialization.  A hunk with no change lines is dropped;
each merged range becomes one output hunk, kept only if its slice still
contains a change line (the safety filter at the end of the source loop). -/
def trimCore (hh : HunkHeader) (items : List Item) (ctxN : Nat) : List TrimmedHunk :=
  let oldB := lineBefore hh.oldStart oldDelta items
  let newB := lineBefore hh.newStart newDelta items
  match changeIdxsFrom 0 items with
  | [] => []
  | c0 :: cRest =>
    let blocks := groupRuns c0 c0 cRest
    let ranges := blocks.map (fun b => expandBlock items ctxN b.1 b.2)
    let merged := mergeRanges (sortRanges ranges)
    (merged.map (segmentHunk hh items oldB newB)).filter
      (fun th => th.body.any (fun it => isChangeKind it.type))

/-- trimOneHunk of the source up to header serialization: classify every
body line, then run the trimming pipeline. -/
def trimOneHunkStructs (hh : HunkHeader) (bodyLines : List (List Char))
    (ctxN : Nat) : List TrimmedHunk :=
  trimCore hh (bodyLines.map classifyLine) ctxN

/-- trimOneHunk of the source: header line plus body lines per output
hunk. -/
def trimOneHunk (hh : HunkHeader) (bodyLines : List (List Char))
    (ctxN : Nat) : List (List Char × List (List Char)) :=
  (trimOneHunkStructs hh bodyLines ctxN).map
    (fun th =>
      ( formatHunkHeader th.oldStart th.oldLen th.newStart th.newLen th.sectionText
      , th.body.map Item.text ))

/-! ### The outer scan of reduceDiffContext -/

inductive DiffError where
  | invalidArgument
  | malformedHunkHeader
deriving DecidableEq, Repr

def isFileHeaderStart (l : List Char) : Bool :=
  ("diff --git ".data).isPrefixOf l

/-- The inner while condition collecting a hunk body: not a hunk header
and not a file header. -/
def keepInBody (l : List Char) : Bool :=
  !(isHunkHeaderLine l) && !(isFileHeaderStart l)

/-- The outer while loop of reduceDiffContext.  Each iteration consumes at
least the current line, so a fuel equal to the number of lines is always
sufficient; the fuel-exhaustion branch is never taken when called from
reduceDiffContext.  A line that passes the isHunkHeader test but whose full
parse fails (a LineTerminator inside the trailing section) raises the
malformed-header error, aborting the whole call, as in the source. -/
def processLines : Nat → Nat → List (List Char) → Except DiffError (List (List Char))
  | _, _, [] => Except.ok []
  | 0, _, _ :: _ => Except.ok []
  | fuel + 1, ctxN, line :: rest =>
    if isHunkHeaderLine line then
      match parseHunkHeader line with
      | none => Except.error DiffError.malformedHunkHeader
      | some hh =>
        let body := rest.takeWhile keepInBody
        let rest2 := rest.dropWhile keepInBody
        match processLines fuel ctxN rest2 with
        | Except.error e => Except.error e
        | Except.ok tail =>
          Except.ok (((trimOneHunk hh body ctxN).map (fun th => th.1 :: th.2)).flatten ++ tail)
    else
      match processLines fuel ctxN rest with
      | Except.error e => Except.error e
      | Except.ok tail => Except.ok (line :: tail)

/-- The global replace of CR-LF by LF done before splitting
(left-to-right, non-overlapping, as the JavaScript global regex replace). -/
def normCRLF : List Char → List Char
  | [] => []
  | '\r' :: '\n' :: rest => '\n' :: normCRLF rest
  | c :: rest => c :: normCRLF rest

/-- JavaScript split on LF: the empty string splits into one empty piece,
and a trailing LF yields a trailing empty piece. -/
def splitNl : List Char → List (List Char)
  | [] => [[]]
  | '\n' :: rest => [] :: splitNl rest
  | c :: rest =>
    match splitNl rest with
    | [] => [[c]]
    | l :: ls => (c :: l) :: ls

/-- The final reduce of the source: every output line, hunk or
passthrough, is terminated by LF. -/
def joinLines (out : List (List Char)) : List Char :=
  out.foldl (fun acc l => acc ++ l ++ ['\n']) []

/-- reduceDiffContext of the source, for an already-validated non-negative
integral context width. -/
def reduceDiffContext (patchText : String) (contextLines : Nat) :
    Except DiffError String :=
  let lines := splitNl (normCRLF patchText.data)
  match processLines lines.length contextLines lines with
  | Except.error e => Except.error e
  | Except.ok out => Except.ok (String.mk (joinLines out))

/-! ### The argument check of reduceDiffContext

JavaScript numbers are modelled as finite rationals plus NaN and the two
infinities.  The source rejects the context width unless it is finite and
non-negative; afterwards the width is only ever used in the comparisons
ctxCount + 1 >= ctxN with an integral left side, so a finite non-negative
width q behaves exactly like the natural number ceiling of q. -/

inductive JSNum where
  | finite (q : ℚ)
  | nan
  | posInf
  | negInf

def JSNum.isFiniteNonneg : JSNum → Bool
  | JSNum.finite q => decide (0 ≤ q)
  | _ => false

def JSNum.toCtxNat : JSNum → Nat
  | JSNum.finite q => q.ceil.toNat
  | _ => 0

/-- reduceDiffContext of the source including its argument check: the
check runs before any of the diff text is touched, and on failure the call
produces nothing but the InvalidArgument error. -/
def reduceDiffContextJS (patchText : String) (contextLines : JSNum) :
    Except DiffError String :=
  if contextLines.isFiniteNonneg then
    reduceDiffContext patchText contextLines.toCtxNat
  else Except.error DiffError.invalidArgument

/-! ### Host-state discovery: findFirstParentWhere

The JavaScript object graph is modelled as a heap: a list of objects
addressed by index, where a value is null, a primitive (any non-object,
non-null value — its content never matters, since the search returns
immediately on it), or a reference to a heap slot.  Object identity, used
by the WeakSet visited guard, is the heap address.  An object's children
are its enumerable entries in iteration order: for arrays the indexed
elements (path element: index), for plain objects the Object.entries pairs
(path element: key) — the source walks exactly one of the two lists, so
they are folded into one children list whose path-element tags record
which form the source would have used.  A callable value satisfies
"typeof node !== 'object'" in the source (typeof a function is
"function"), so the search returns on it before touching the visited set;
the later "typeof node === 'function'" check in the source is dead code.
The caller-supplied matcher receives the node and the path; with the heap
fixed, a predicate on the node is a predicate on its address. -/

inductive PathElem where
  | idx (i : Nat)
  | key (k : String)
deriving DecidableEq, Repr

inductive JSVal where
  | prim
  | vnull
  | ref (a : Nat)
deriving DecidableEq, Repr

structure JSObject where
  callable : Bool
  children : List (PathElem × JSVal)
deriving DecidableEq, Repr

abbrev Heap := List JSObject

/-- The recursive dfs closure of findFirstParentWhere.  The fuel bounds
the nesting depth only; every level that recurses into children has just
added a fresh address to the visited set, so heap.length + 1 fuel is
always sufficient (proved below as fuel-stability).  The source's early
return after a hit is modelled by the fold skipping the remaining children
once the accumulated result is present — no further recursive call is
made, exactly as in the source. -/
def dfs (heap : Heap) (matcher : Nat → List PathElem → Bool) :
    Nat → JSVal → List PathElem → List Nat →
      Option (Nat × List PathElem) × List Nat
  | 0, _, _, vis => (none, vis)
  | fuel + 1, v, path, vis =>
    match v with
    | JSVal.prim => (none, vis)
    | JSVal.vnull => (none, vis)
    | JSVal.ref a =>
      match heap[a]? with
      | none => (none, vis)
      | some node =>
        if node.callable then (none, vis)
        else if a ∈ vis then (none, vis)
        else
          if matcher a path then (some (a, path), a :: vis)
          else
            node.children.foldl
              (fun acc pc =>
                match acc.1 with
                | some _ => acc
                | none => dfs heap matcher fuel pc.2 (path ++ [pc.1]) acc.2)
              (none, a :: vis)

def findFirstParentWhere (heap : Heap) (matcher : Nat → List PathElem → Bool)
    (root : JSVal) : Option (Nat × List PathElem) :=
  (dfs heap matcher (heap.length + 1) root [] []).1

/-- Modelled from the spec: the depth-first visit order of the object
graph — the list of (node, path) pairs in the order in which the
cycle-safe depth-first search first reaches each non-callable object,
threading the identity-keyed visited set but ignoring the matcher.  The
spec describes findFirstParentWhere as returning the first node in this
order satisfying the predicate, together with its path. -/
def specVisitOrder (heap : Heap) :
    Nat → JSVal → List PathElem → List Nat →
      List (Nat × List PathElem) × List Nat
  | 0, _, _, vis => ([], vis)
  | fuel + 1, v, path, vis =>
    match v with
    | JSVal.prim => ([], vis)
    | JSVal.vnull => ([], vis)
    | JSVal.ref a =>
      match heap[a]? with
      | none => ([], vis)
      | some node =>
        if node.callable then ([], vis)
        else if a ∈ vis then ([], vis)
        else
          node.children.foldl
            (fun acc pc =>
              let r := specVisitOrder heap fuel pc.2 (path ++ [pc.1]) acc.2
              (acc.1 ++ r.1, r.2))
            ([(a, path)], a :: vis)

/-- Property access along one path element, as the host page would resolve
the recorded path: the first child entry with the given key. -/
def lookupChild (node : JSObject) (pe : PathElem) : Option JSVal :=
  (node.children.find? (fun pc => pc.1 == pe)).map Prod.snd

/-- Following a recorded key/index path from a value. -/
def followVal (heap : Heap) : JSVal → List PathElem → Option JSVal
  | v, [] => some v
  | JSVal.ref a, pe :: rest =>
    (match heap[a]? with
     | none => none
     | some node =>
       match lookupChild node pe with
       | none => none
       | some c => followVal heap c rest)
  | _, _ :: _ => none

/-- Well-formed heaps have no duplicate property keys inside one object,
as JavaScript objects and arrays cannot. -/
def heapWF (heap : Heap) : Prop :=
  ∀ node ∈ heap, ((node.children.map Prod.fst).Nodup)

instance (heap : Heap) : Decidable (heapWF heap) :=
  List.decidableBAll _ heap

/-- The number of valid addresses not yet visited; the termination measure
of the search. -/
def unvisited (heap : Heap) (vis : List Nat) : Nat :=
  ((List.range heap.length).filter (fun a => decide (a ∉ vis))).length

/-- A small cyclic test graph: object 0 links to itself and to object 1. -/
def heap0 : Heap :=
  [⟨false, [(PathElem.key "self", JSVal.ref 0), (PathElem.key "x", JSVal.ref 1)]⟩,
   ⟨false, []⟩]

instance : DecidableEq (Except DiffError String) := fun x y =>
  match x, y with
  | Except.ok a, Except.ok b =>
    if h : a = b then Decidable.isTrue (congrArg Except.ok h)
    else Decidable.isFalse (fun hh => h (Except.ok.inj hh))
  | Except.error a, Except.error b =>
    if h : a = b then Decidable.isTrue (congrArg Except.error h)
    else Decidable.isFalse (fun hh => h (Except.error.inj hh))
  | Except.ok _, Except.error _ => Decidable.isFalse (fun hh => Except.noConfusion hh)
  | Except.error _, Except.ok _ => Decidable.isFalse (fun hh => Except.noConfusion hh)

/-- Body of the two-change-block scenario: one block of a deletion and an
addition, a run of g context lines, then a second such block. -/
def c4body (g : Nat) : List (List Char) :=
  "-a".data :: "+b".data :: (List.replicate g " c".data ++ ["-d".data, "+e".data])

/-- The classified form of c4body. -/
def c4items (g : Nat) : List Item :=
  ⟨LineKind.del, "-a".data⟩ :: ⟨LineKind.add, "+b".data⟩ ::
    (List.replicate g ⟨LineKind.ctx, " c".data⟩ ++
      [⟨LineKind.del, "-d".data⟩, ⟨LineKind.add, "+e".data⟩])

end Codex

namespace Codex

/-! ### Theorems -/

/-- C7: the concrete scenario of the spec: the single hunk with header
line "@@ -10,7 +10,8 @@" and nine body lines, reduced with one context
line, emits exactly one hunk with header "@@ -11,3 +11,4 @@" and the five
body lines around the change block. -/
theorem reduce_concrete_scenario :
    reduceDiffContext
      "@@ -10,7 +10,8 @@\n ctx1\n ctx2\n-old3\n+new3\n+new3b\n ctx4\n ctx5\n ctx6\n ctx7" 1 =
      Except.ok "@@ -11,3 +11,4 @@\n ctx2\n-old3\n+new3\n+new3b\n ctx4\n" := by
  rfl

/-- C6 counterexample: reduce on the empty string does not return the
empty string (the empty string splits into one empty line, which is copied
through and terminated by a newline). -/
theorem reduce_empty_cex : reduceDiffContext "" 3 ≠ Except.ok "" := by
  decide

/-- C6 amended: for every context width, reduce on the empty string
returns the one-character newline string. -/
theorem reduce_empty_eq_newline (contextLines : Nat) :
    reduceDiffContext "" contextLines = Except.ok "\n" := rfl

/-- C1 counterexample: reduce is not idempotent: on the empty string the
first pass yields a single newline and the second pass yields two. -/
theorem reduce_not_idempotent_cex :
    reduceDiffContext "" 3 = Except.ok "\n" ∧
      reduceDiffContext "\n" 3 ≠ Except.ok "\n" := by
  constructor
  · rfl
  · decide

/-- C1 amended: idempotence does hold on inputs ending inside a hunk whose
trailing context is trimmed away, since the extra empty line produced by
re-splitting the first pass's newline-terminated output is then dropped
with the trimmed tail; the spec's own concrete hunk is such an input. -/
theorem reduce_idempotent_on_trimmed_example :
    reduceDiffContext
      "@@ -10,7 +10,8 @@\n ctx1\n ctx2\n-old3\n+new3\n+new3b\n ctx4\n ctx5\n ctx6\n ctx7" 1 =
      Except.ok "@@ -11,3 +11,4 @@\n ctx2\n-old3\n+new3\n+new3b\n ctx4\n" ∧
    reduceDiffContext "@@ -11,3 +11,4 @@\n ctx2\n-old3\n+new3\n+new3b\n ctx4\n" 1 =
      Except.ok "@@ -11,3 +11,4 @@\n ctx2\n-old3\n+new3\n+new3b\n ctx4\n" := by
  constructor
  · rfl
  · rfl

/-- C5: evaluation at the failing input: with a requested context width of
zero, the emitted hunk still keeps one context line on each side of the
change block (the expansion loop increments its counter before comparing
it to the budget), so the input hunk is returned in full instead of being
narrowed to the lone deletion line. -/
theorem contextZero_keeps_one_context_eval :
    reduceDiffContext "@@ -1,3 +1,2 @@\n a\n-b\n c" 0 =
      Except.ok "@@ -1,3 +1,2 @@\n a\n-b\n c\n" := rfl

/-- The scan loop can only fail with the malformed-header error; the
invalid-argument error is raised exclusively by the argument check. -/
theorem processLines_no_invalidArgument (fuel ctxN : Nat) (lines : List (List Char)) :
    processLines fuel ctxN lines ≠ Except.error DiffError.invalidArgument := by
  induction fuel generalizing lines with
  | zero => cases lines <;> simp [processLines]
  | succ n ih =>
    cases lines with
    | nil => simp [processLines]
    | cons line rest =>
      simp only [processLines]
      by_cases h : isHunkHeaderLine line = true
      · simp only [h, if_true]
        cases hp : parseHunkHeader line with
        | none => simp
        | some hh =>
          simp only []
          cases hr : processLines n ctxN (rest.dropWhile keepInBody) with
          | error e =>
            have he := ih (rest.dropWhile keepInBody)
            rw [hr] at he
            simpa using he
          | ok tail => simp
      · simp only [h, if_false]
        cases hr : processLines n ctxN rest with
        | error e =>
          have he := ih rest
          rw [hr] at he
          simpa using he
        | ok tail => simp

/-- reduceDiffContext on an already-validated width never reports the
invalid-argument error. -/
theorem reduceDiffContext_no_invalidArgument (p : String) (n : Nat) :
    reduceDiffContext p n ≠ Except.error DiffError.invalidArgument := by
  unfold reduceDiffContext
  dsimp only
  cases hr : processLines (splitNl (normCRLF p.data)).length n (splitNl (normCRLF p.data)) with
  | error e =>
    have he := processLines_no_invalidArgument (splitNl (normCRLF p.data)).length n
      (splitNl (normCRLF p.data))
    rw [hr] at he
    simpa using he
  | ok out => simp

/-- C8: the call fails with the InvalidArgument error exactly when the
requested context width is not a finite non-negative number, and in that
case the result does not depend on the diff text at all (the check runs
before any processing and no output is produced). -/
theorem reduce_invalidArgument_iff (contextLines : JSNum) (p p2 : String) :
    (reduceDiffContextJS p contextLines = Except.error DiffError.invalidArgument ↔
      contextLines.isFiniteNonneg = false) ∧
    (contextLines.isFiniteNonneg = true ∨
      reduceDiffContextJS p contextLines = reduceDiffContextJS p2 contextLines) := by
  constructor
  · constructor
    · intro h
      cases hf : contextLines.isFiniteNonneg with
      | false => rfl
      | true =>
        unfold reduceDiffContextJS at h
        rw [hf] at h
        simp only [if_true] at h
        exact absurd h (reduceDiffContext_no_invalidArgument p contextLines.toCtxNat)
    · intro hf
      unfold reduceDiffContextJS
      rw [hf]
      simp
  · cases hf : contextLines.isFiniteNonneg with
    | false =>
      right
      unfold reduceDiffContextJS
      rw [hf]
      simp
    | true => left; rfl

/-! Decimal rendering and scanning round-trip, used for the codec claim. -/

theorem natToCharsAux_congr : ∀ f1 f2 n, n < f1 → n < f2 →
    natToCharsAux f1 n = natToCharsAux f2 n := by
  intro f1
  induction f1 with
  | zero => intro f2 n h1 _; omega
  | succ a ih =>
    intro f2 n h1 h2
    cases f2 with
    | zero => omega
    | succ b =>
      simp only [natToCharsAux]
      by_cases hn : n < 10
      · simp [hn]
      · have hdiv : n / 10 < n := Nat.div_lt_self (by omega) (by omega)
        simp only [hn, if_false]
        rw [ih b (n / 10) (by omega) (by omega)]

theorem natToChars_unfold (n : Nat) :
    natToChars n =
      if n < 10 then [digitChar n]
      else natToChars (n / 10) ++ [digitChar (n % 10)] := by
  by_cases hn : n < 10
  · simp [natToChars, natToCharsAux, hn]
  · have h1 : natToChars n = natToCharsAux n (n / 10) ++ [digitChar (n % 10)] := by
      simp [natToChars, natToCharsAux, hn]
    rw [h1, natToCharsAux_congr n (n / 10 + 1) (n / 10)
      (by
        have : n / 10 < n := Nat.div_lt_self (by omega) (by omega)
        omega)
      (by omega), if_neg hn]
    rfl

theorem digitChar_isDigit : ∀ d, d < 10 → isDigitCh (digitChar d) = true := by
  decide

theorem digitChar_toNat : ∀ d, d < 10 → (digitChar d).toNat = 48 + d := by
  decide

theorem natToChars_spec (n : Nat) :
    natToChars n ≠ [] ∧ (∀ c ∈ natToChars n, isDigitCh c = true) := by
  induction n using Nat.strong_induction_on with
  | _ n ih =>
    rw [natToChars_unfold]
    by_cases hn : n < 10
    · simp only [hn, if_true]
      refine ⟨by simp, ?_⟩
      intro c hc
      simp only [List.mem_singleton] at hc
      subst hc
      exact digitChar_isDigit n hn
    · have hdiv : n / 10 < n := Nat.div_lt_self (by omega) (by omega)
      simp only [hn, if_false]
      refine ⟨by simp [(ih (n / 10) hdiv).1], ?_⟩
      intro c hc
      rw [List.mem_append] at hc
      cases hc with
      | inl h => exact (ih (n / 10) hdiv).2 c h
      | inr h =>
        simp only [List.mem_singleton] at h
        subst h
        exact digitChar_isDigit (n % 10) (Nat.mod_lt n (by omega))

theorem digitsFold_natToChars (n : Nat) : ∀ a : Nat,
    (natToChars n).foldl (fun a c => a * 10 + (c.toNat - 48)) a =
      a * 10 ^ (natToChars n).length + n := by
  induction n using Nat.strong_induction_on with
  | _ n ih =>
    intro a
    rw [natToChars_unfold]
    by_cases hn : n < 10
    · simp only [hn, if_true, List.foldl_cons, List.foldl_nil, List.length_singleton]
      rw [digitChar_toNat n hn]
      ring_nf
      omega
    · have hdiv : n / 10 < n := Nat.div_lt_self (by omega) (by omega)
      simp only [hn, if_false, List.foldl_append, List.foldl_cons, List.foldl_nil,
        List.length_append, List.length_singleton]
      rw [ih (n / 10) hdiv a, digitChar_toNat (n % 10) (Nat.mod_lt n (by omega))]
      have hmod : 10 * (n / 10) + n % 10 = n := Nat.div_add_mod n 10
      ring_nf
      omega

theorem digitsToNat_natToChars (n : Nat) : digitsToNat (natToChars n) = n := by
  unfold digitsToNat
  rw [digitsFold_natToChars n 0]
  simp

theorem takeWhile_append_of_all {p : Char → Bool} :
    ∀ (ds rest : List Char), (∀ c ∈ ds, p c = true) →
      (ds ++ rest).takeWhile p = ds ++ rest.takeWhile p := by
  intro ds
  induction ds with
  | nil => intro rest _; simp
  | cons d t ih =>
    intro rest h
    have hd : p d = true := h d (by simp)
    simp only [List.cons_append, List.takeWhile_cons, hd, if_true]
    rw [ih rest (fun c hc => h c (by simp [hc]))]

theorem dropWhile_append_of_all {p : Char → Bool} :
    ∀ (ds rest : List Char), (∀ c ∈ ds, p c = true) →
      (ds ++ rest).dropWhile p = rest.dropWhile p := by
  intro ds
  induction ds with
  | nil => intro rest _; simp
  | cons d t ih =>
    intro rest h
    have hd : p d = true := h d (by simp)
    simp only [List.cons_append, List.dropWhile_cons, hd, if_true]
    exact ih rest (fun c hc => h c (by simp [hc]))

theorem dropWhile_of_takeWhile_nil {p : Char → Bool} :
    ∀ rest : List Char, rest.takeWhile p = [] → rest.dropWhile p = rest := by
  intro rest h
  cases rest with
  | nil => rfl
  | cons c t =>
    simp only [List.takeWhile_cons] at h
    by_cases hc : p c = true
    · simp [hc] at h
    · simp only [Bool.not_eq_true] at hc
      simp [List.dropWhile_cons, hc]

theorem parseDigits_natToChars (n : Nat) (rest : List Char)
    (h : rest.takeWhile isDigitCh = []) :
    parseDigits (natToChars n ++ rest) = some (n, rest) := by
  have hs := natToChars_spec n
  have hne : (natToChars n).isEmpty = false := by
    cases hx : natToChars n with
    | nil => exact absurd hx hs.1
    | cons _ _ => rfl
  unfold parseDigits
  dsimp only
  rw [takeWhile_append_of_all _ _ hs.2, h, List.append_nil,
    dropWhile_append_of_all _ _ hs.2, dropWhile_of_takeWhile_nil rest h, hne]
  simp [digitsToNat_natToChars]

/-- Parsing one rendered range part: the digits of the start are consumed,
and the optional comma group recovers exactly the rendered length, leaving
the space-led remainder untouched. -/
theorem part_roundtrip (start len : Nat) (R2 : List Char) :
    parseDigits
        ((if len = 0 then natToChars start ++ [',', '0'] else fmtRange start len) ++
          ' ' :: R2) =
      some (start, ((if len = 0 then [',', '0']
        else if len = 1 then [] else ',' :: natToChars len) ++ ' ' :: R2)) ∧
    optCommaDigits ((if len = 0 then [',', '0']
        else if len = 1 then [] else ',' :: natToChars len) ++ ' ' :: R2) =
      (len, ' ' :: R2) := by
  have cdsp : isDigitCh ' ' = false := by decide
  have cdcm : isDigitCh ',' = false := by decide
  have hsp : (' ' :: R2).takeWhile isDigitCh = [] := by
    simp [List.takeWhile_cons, cdsp]
  by_cases h0 : len = 0
  · subst h0
    constructor
    · show parseDigits ((natToChars start ++ [',', '0']) ++ ' ' :: R2) =
        some (start, ',' :: '0' :: ' ' :: R2)
      rw [List.append_assoc]
      exact parseDigits_natToChars start (',' :: '0' :: ' ' :: R2)
        (by simp [List.takeWhile_cons, cdcm])
    · show optCommaDigits (',' :: '0' :: ' ' :: R2) = (0, ' ' :: R2)
      have h01 : natToChars 0 = ['0'] := rfl
      have h02 : ('0' : Char) :: ' ' :: R2 = natToChars 0 ++ ' ' :: R2 := by
        rw [h01]
        rfl
      simp only [optCommaDigits, h02, parseDigits_natToChars 0 (' ' :: R2) hsp]
  · by_cases h1 : len = 1
    · subst h1
      constructor
      · show parseDigits (natToChars start ++ ' ' :: R2) = some (start, [] ++ ' ' :: R2)
        simpa using parseDigits_natToChars start (' ' :: R2) hsp
      · show optCommaDigits (' ' :: R2) = (1, ' ' :: R2)
        rfl
    · have hfr : (if len = 0 then natToChars start ++ [',', '0']
          else fmtRange start len) = natToChars start ++ ',' :: natToChars len := by
        simp [fmtRange, h0, h1]
      have hmid : (if len = 0 then [',', '0']
          else if len = 1 then [] else ',' :: natToChars len) = ',' :: natToChars len := by
        simp [h0, h1]
      rw [hfr, hmid]
      constructor
      · rw [List.append_assoc]
        refine parseDigits_natToChars start (',' :: (natToChars len ++ ' ' :: R2)) ?_
        simp [List.takeWhile_cons, cdcm]
      · show optCommaDigits (',' :: (natToChars len ++ ' ' :: R2)) = (len, ' ' :: R2)
        simp only [optCommaDigits, parseDigits_natToChars len (' ' :: R2) hsp]

/-- C3 counterexample: the round-trip fails when the section text contains
a line terminator: the formatted header does not parse back (the source's
parse regex cannot match across a newline, so parseHunkHeader throws). -/
theorem parse_format_roundtrip_cex :
    parseHunkHeader (formatHunkHeader 1 1 1 1 "\n".data) ≠
      some ⟨1, 1, 1, 1, "\n".data⟩ ∧
    parseHunkHeader (formatHunkHeader 1 1 1 1 "\n".data) = none := by
  constructor
  · decide
  · decide

theorem matchHunkPre_format (os ol ns nl : Nat) (sec : List Char) :
    matchHunkPre (formatHunkHeader os ol ns nl sec) = some (os, ol, ns, nl, sec) := by
  have cws : isJsWs ' ' = true := by decide
  have cdash : isJsWs '-' = false := by decide
  have cplus : isJsWs '+' = false := by decide
  have cat : isJsWs '@' = false := by decide
  have hold := part_roundtrip os ol ('+' ::
    ((if nl = 0 then natToChars ns ++ [',', '0'] else fmtRange ns nl) ++ ' ' :: '@' :: '@' :: sec))
  have hnew := part_roundtrip ns nl ('@' :: '@' :: sec)
  have hfmt : formatHunkHeader os ol ns nl sec =
      '@' :: '@' :: ' ' :: '-' ::
        ((if ol = 0 then natToChars os ++ [',', '0'] else fmtRange os ol) ++
          ' ' :: '+' ::
            ((if nl = 0 then natToChars ns ++ [',', '0'] else fmtRange ns nl) ++
              ' ' :: '@' :: '@' :: sec)) := by
    unfold formatHunkHeader
    dsimp only
    simp [List.append_assoc, List.cons_append]
  rw [hfmt]
  have e2 : skipWs1 (' ' :: '-' ::
      ((if ol = 0 then natToChars os ++ [',', '0'] else fmtRange os ol) ++
        ' ' :: '+' ::
          ((if nl = 0 then natToChars ns ++ [',', '0'] else fmtRange ns nl) ++
            ' ' :: '@' :: '@' :: sec))) = some ('-' ::
      ((if ol = 0 then natToChars os ++ [',', '0'] else fmtRange os ol) ++
        ' ' :: '+' ::
          ((if nl = 0 then natToChars ns ++ [',', '0'] else fmtRange ns nl) ++
            ' ' :: '@' :: '@' :: sec))) := by
    simp [skipWs1, cws, List.dropWhile_cons, cdash]
  have e4 : skipWs1 (' ' :: '+' ::
      ((if nl = 0 then natToChars ns ++ [',', '0'] else fmtRange ns nl) ++
        ' ' :: '@' :: '@' :: sec)) = some ('+' ::
      ((if nl = 0 then natToChars ns ++ [',', '0'] else fmtRange ns nl) ++
        ' ' :: '@' :: '@' :: sec)) := by
    simp [skipWs1, cws, List.dropWhile_cons, cplus]
  have e6 : skipWs1 (' ' :: '@' :: '@' :: sec) = some ('@' :: '@' :: sec) := by
    simp [skipWs1, cws, List.dropWhile_cons, cat]
  simp only [matchHunkPre, expectTwoAt, Option.bind_eq_bind, Option.some_bind,
    e2, e4, e6, expectCh, if_true, Option.pure_def, hold.1, hold.2, hnew.1, hnew.2]

/-- C3 amended: for every tuple of start/length values and every section
text free of line terminators, parsing the formatted header line
reproduces the tuple exactly. -/
theorem parse_format_roundtrip (os ol ns nl : Nat) (sec : List Char)
    (hsec : ∀ c ∈ sec, isLineTerm c = false) :
    parseHunkHeader (formatHunkHeader os ol ns nl sec) =
      some ⟨os, ol, ns, nl, sec⟩ := by
  have hall : sec.all (fun c => !(isLineTerm c)) = true := by
    rw [List.all_eq_true]
    intro c hc
    simp [hsec c hc]
  rw [parseHunkHeader, matchHunkPre_format os ol ns nl sec]
  simp [hall]

/-- C3 witness: a concrete instance of the amended round-trip. -/
theorem parse_format_roundtrip_witness :
    (∀ c ∈ (" sec".data : List Char), isLineTerm c = false) ∧
    parseHunkHeader (formatHunkHeader 11 3 11 4 " sec".data) =
      some ⟨11, 3, 11, 4, " sec".data⟩ :=
  ⟨by decide, parse_format_roundtrip 11 3 11 4 " sec".data (by decide)⟩

/-! Structural facts about trimOneHunk, shared by the header-consistency
and slice claims. -/

theorem classifyLine_text (l : List Char) : (classifyLine l).text = l := by
  unfold classifyLine
  split
  · rfl
  · split <;> rfl

theorem mem_changeIdxsFrom (items : List Item) : ∀ i x,
    x ∈ changeIdxsFrom i items ↔ (i ≤ x ∧ isChangeAt items (x - i) = true) := by
  induction items with
  | nil => intro i x; simp [changeIdxsFrom, isChangeAt]
  | cons it rest ih =>
    intro i x
    simp only [changeIdxsFrom]
    by_cases hc : isChangeKind it.type = true
    · simp only [hc, if_true, List.mem_cons]
      constructor
      · rintro (rfl | hx)
        · refine ⟨Nat.le_refl x, ?_⟩
          simp [isChangeAt, hc]
        · have h2 := (ih (i + 1) x).mp hx
          refine ⟨by omega, ?_⟩
          have hxi : x - i = (x - (i + 1)) + 1 := by omega
          rw [hxi]
          simpa [isChangeAt] using h2.2
      · rintro ⟨hle, hat⟩
        by_cases hxi : x = i
        · exact Or.inl hxi
        · right
          refine (ih (i + 1) x).mpr ⟨by omega, ?_⟩
          have hshift : x - i = (x - (i + 1)) + 1 := by omega
          rw [hshift] at hat
          simpa [isChangeAt] using hat
    · have hc' : isChangeKind it.type = false := by
        cases hx : isChangeKind it.type
        · rfl
        · exact absurd hx hc
      simp only [hc', Bool.false_eq_true, if_false]
      rw [ih (i + 1) x]
      constructor
      · rintro ⟨hle, hat⟩
        refine ⟨by omega, ?_⟩
        have hshift : x - i = (x - (i + 1)) + 1 := by omega
        rw [hshift]
        simpa [isChangeAt] using hat
      · rintro ⟨hle, hat⟩
        by_cases hxi : x = i
        · subst hxi
          simp [isChangeAt, hc'] at hat
        · refine ⟨by omega, ?_⟩
          have hshift : x - i = (x - (i + 1)) + 1 := by omega
          rw [hshift] at hat
          simpa [isChangeAt] using hat

theorem isChangeAt_lt_length (items : List Item) (k : Nat)
    (h : isChangeAt items k = true) : k < items.length := by
  unfold isChangeAt at h
  cases hk : items[k]? with
  | none => rw [hk] at h; simp at h
  | some it => exact (List.getElem?_eq_some_iff.mp hk).1

theorem groupRuns_inv (P : Nat → Prop) : ∀ (l : List Nat) (bs be : Nat),
    P bs → P be → bs ≤ be → (∀ x ∈ l, P x) →
    ∀ r ∈ groupRuns bs be l, P r.1 ∧ P r.2 ∧ r.1 ≤ r.2 := by
  intro l
  induction l with
  | nil =>
    intro bs be h1 h2 h3 _ r hr
    simp only [groupRuns, List.mem_singleton] at hr
    subst hr
    exact ⟨h1, h2, h3⟩
  | cons i rest ih =>
    intro bs be h1 h2 h3 hall r hr
    simp only [groupRuns] at hr
    by_cases hi : i = be + 1
    · rw [if_pos hi] at hr
      exact ih bs i h1 (hall i (by simp)) (by omega)
        (fun x hx => hall x (by simp [hx])) r hr
    · rw [if_neg hi] at hr
      rcases List.mem_cons.mp hr with hhd | htl
      · subst hhd
        exact ⟨h1, h2, h3⟩
      · exact ih i i (hall i (by simp)) (hall i (by simp)) (Nat.le_refl i)
          (fun x hx => hall x (by simp [hx])) r htl

theorem expandLeftAux_le (ctxN : Nat) : ∀ (l : List Item) (j s cnt : Nat),
    expandLeftAux ctxN l j s cnt ≤ max j s := by
  intro l
  induction l with
  | nil => intro j s cnt; simp [expandLeftAux]
  | cons it rest ih =>
    intro j s cnt
    simp only [expandLeftAux]
    cases it.type <;> dsimp only
    case ctx =>
      by_cases h : cnt + 1 ≥ ctxN
      · simp only [h, if_true]
        omega
      · simp only [h, if_false]
        have := ih (j - 1) j (cnt + 1)
        omega
    case add => omega
    case del => omega
    case meta =>
      have := ih (j - 1) j cnt
      omega
    case other =>
      have := ih (j - 1) j cnt
      omega

theorem expandRightAux_le (ctxN : Nat) : ∀ (l : List Item) (j e cnt : Nat),
    expandRightAux ctxN l j e cnt ≤ max e (j - 1 + l.length) := by
  intro l
  induction l with
  | nil => intro j e cnt; simp [expandRightAux]
  | cons it rest ih =>
    intro j e cnt
    simp only [expandRightAux, List.length_cons]
    cases it.type <;> dsimp only
    case ctx =>
      by_cases h : cnt + 1 ≥ ctxN
      · simp only [h, if_true]
        omega
      · simp only [h, if_false]
        have := ih (j + 1) j (cnt + 1)
        omega
    case add => omega
    case del => omega
    case meta =>
      have := ih (j + 1) j cnt
      omega
    case other =>
      have := ih (j + 1) j cnt
      omega

theorem expandRightAux_ge (ctxN : Nat) : ∀ (l : List Item) (j e cnt : Nat),
    e ≤ j → e ≤ expandRightAux ctxN l j e cnt := by
  intro l
  induction l with
  | nil => intro j e cnt _; simp [expandRightAux]
  | cons it rest ih =>
    intro j e cnt hje
    simp only [expandRightAux]
    cases it.type <;> dsimp only
    case ctx =>
      by_cases h : cnt + 1 ≥ ctxN
      · simp only [h, if_true]
        omega
      · simp only [h, if_false]
        have := ih (j + 1) j (cnt + 1) (by omega)
        omega
    case add => omega
    case del => omega
    case meta =>
      have := ih (j + 1) j cnt (by omega)
      omega
    case other =>
      have := ih (j + 1) j cnt (by omega)
      omega

theorem expandBlock_spec (items : List Item) (ctxN a b : Nat)
    (_hab : a ≤ b) (hb : b < items.length) :
    (expandBlock items ctxN a b).1 ≤ a ∧ b ≤ (expandBlock items ctxN a b).2 ∧
      (expandBlock items ctxN a b).2 < items.length := by
  unfold expandBlock
  refine ⟨?_, ?_, ?_⟩
  · have := expandLeftAux_le ctxN ((items.take a).reverse) (a - 1) a 0
    omega
  · exact expandRightAux_ge ctxN (items.drop (b + 1)) (b + 1) b 0 (by omega)
  · have hle := expandRightAux_le ctxN (items.drop (b + 1)) (b + 1) b 0
    rw [List.length_drop] at hle
    omega

theorem mem_insertRange (r x : Nat × Nat) (l : List (Nat × Nat)) :
    x ∈ insertRange r l ↔ x = r ∨ x ∈ l := by
  induction l with
  | nil => simp [insertRange]
  | cons q rest ih =>
    simp only [insertRange]
    by_cases h : r.1 ≤ q.1
    · rw [if_pos h]
      simp [List.mem_cons]
    · rw [if_neg h]
      simp only [List.mem_cons, ih]
      tauto

theorem mem_sortRanges (x : Nat × Nat) : ∀ l : List (Nat × Nat),
    x ∈ sortRanges l ↔ x ∈ l := by
  intro l
  induction l with
  | nil => simp [sortRanges]
  | cons r rest ih =>
    simp only [sortRanges, mem_insertRange, List.mem_cons, ih]

theorem mergeRangesAux_inv (Q : Nat × Nat → Prop)
    (habs : ∀ a b, Q a → Q b → Q (a.1, max a.2 b.2)) :
    ∀ (l : List (Nat × Nat)) (cur : Nat × Nat), Q cur → (∀ r ∈ l, Q r) →
      ∀ r ∈ mergeRangesAux cur l, Q r := by
  intro l
  induction l with
  | nil =>
    intro cur hcur _ r hr
    simp only [mergeRangesAux, List.mem_singleton] at hr
    subst hr
    exact hcur
  | cons q rest ih =>
    intro cur hcur hall r hr
    simp only [mergeRangesAux] at hr
    by_cases h : q.1 ≤ cur.2 + 1
    · rw [if_pos h] at hr
      exact ih (cur.1, max cur.2 q.2) (habs cur q hcur (hall q (by simp)))
        (fun x hx => hall x (by simp [hx])) r hr
    · rw [if_neg h] at hr
      rcases List.mem_cons.mp hr with hhd | htl
      · subst hhd; exact hcur
      · exact ih q (hall q (by simp)) (fun x hx => hall x (by simp [hx])) r htl

theorem mergeRangesAux_head : ∀ (l : List (Nat × Nat)) (cur : Nat × Nat),
    ∃ b tail, mergeRangesAux cur l = (cur.1, b) :: tail := by
  intro l
  induction l with
  | nil => intro cur; exact ⟨cur.2, [], rfl⟩
  | cons q rest ih =>
    intro cur
    simp only [mergeRangesAux]
    by_cases h : q.1 ≤ cur.2 + 1
    · rw [if_pos h]
      exact ih (cur.1, max cur.2 q.2)
    · rw [if_neg h]
      exact ⟨cur.2, mergeRangesAux q rest, by rfl⟩

theorem mergeRangesAux_chain : ∀ (l : List (Nat × Nat)) (cur : Nat × Nat),
    List.Chain' (fun a b : Nat × Nat => a.2 + 1 < b.1) (mergeRangesAux cur l) := by
  intro l
  induction l with
  | nil => intro cur; simp [mergeRangesAux]
  | cons q rest ih =>
    intro cur
    simp only [mergeRangesAux]
    by_cases h : q.1 ≤ cur.2 + 1
    · rw [if_pos h]
      exact ih (cur.1, max cur.2 q.2)
    · rw [if_neg h]
      refine List.chain'_cons'.mpr ⟨?_, ih q⟩
      intro y hy
      obtain ⟨b, tail, hb⟩ := mergeRangesAux_head rest q
      rw [hb] at hy
      simp only [List.head?_cons, Option.mem_def, Option.some_inj] at hy
      subst hy
      simp only []
      omega

theorem lineBefore_getD (delta : LineKind → Nat) : ∀ (items : List Item) (start k : Nat),
    k ≤ items.length →
    (lineBefore start delta items).getD k 0 =
      start + ((items.take k).map (fun it => delta it.type)).sum := by
  intro items
  induction items with
  | nil =>
    intro start k hk
    have hk0 : k = 0 := by simpa using hk
    subst hk0
    simp [lineBefore]
  | cons it rest ih =>
    intro start k hk
    cases k with
    | zero => simp [lineBefore]
    | succ k2 =>
      simp only [lineBefore, List.getD_cons_succ, List.take_succ_cons, List.map_cons,
        List.sum_cons]
      rw [ih (start + delta it.type) k2 (by simpa using hk)]
      omega

theorem sum_oldDelta_countP : ∀ seg : List Item,
    (seg.map (fun it => oldDelta it.type)).sum =
      seg.countP (fun it => it.type == LineKind.ctx || it.type == LineKind.del) := by
  intro seg
  induction seg with
  | nil => simp
  | cons it rest ih =>
    simp only [List.map_cons, List.sum_cons, List.countP_cons]
    rw [ih]
    cases it.type <;> simp [oldDelta] <;> omega

theorem sum_newDelta_countP : ∀ seg : List Item,
    (seg.map (fun it => newDelta it.type)).sum =
      seg.countP (fun it => it.type == LineKind.ctx || it.type == LineKind.add) := by
  intro seg
  induction seg with
  | nil => simp
  | cons it rest ih =>
    simp only [List.map_cons, List.sum_cons, List.countP_cons]
    rw [ih]
    cases it.type <;> simp [newDelta] <;> omega

theorem seg_any_change (items : List Item) (r : Nat × Nat)
    (h : ∃ c, r.1 ≤ c ∧ c ≤ r.2 ∧ isChangeAt items c = true) :
    ((items.drop r.1).take (r.2 + 1 - r.1)).any
      (fun it => isChangeKind it.type) = true := by
  obtain ⟨c, hc1, hc2, hc3⟩ := h
  unfold isChangeAt at hc3
  cases hg : items[c]? with
  | none => rw [hg] at hc3; simp at hc3
  | some it =>
    rw [hg] at hc3
    have hslice : ((items.drop r.1).take (r.2 + 1 - r.1))[c - r.1]? = some it := by
      rw [List.getElem?_take, List.getElem?_drop]
      have hcr : r.1 + (c - r.1) = c := by omega
      rw [hcr, if_pos (by omega)]
      exact hg
    have hmem : it ∈ (items.drop r.1).take (r.2 + 1 - r.1) := by
      obtain ⟨hlt, heq⟩ := List.getElem?_eq_some_iff.mp hslice
      rw [← heq]
      exact List.getElem_mem hlt
    rw [List.any_eq_true]
    exact ⟨it, hmem, hc3⟩

/-- The trimming pipeline either drops the hunk or produces exactly one
output hunk per merged range, where the merged ranges are in-bounds,
strictly separated intervals each containing a change index. -/
theorem trimCore_spec (hh : HunkHeader) (items : List Item) (ctxN : Nat) :
    trimCore hh items ctxN = [] ∨
    ∃ merged : List (Nat × Nat),
      List.Chain' (fun a b : Nat × Nat => a.2 + 1 < b.1) merged ∧
      (∀ r ∈ merged, r.1 ≤ r.2 ∧ r.2 < items.length ∧
        ∃ c, r.1 ≤ c ∧ c ≤ r.2 ∧ isChangeAt items c = true) ∧
      trimCore hh items ctxN =
        merged.map (segmentHunk hh items (lineBefore hh.oldStart oldDelta items)
          (lineBefore hh.newStart newDelta items)) := by
  cases hK : changeIdxsFrom 0 items with
  | nil =>
    left
    unfold trimCore
    dsimp only
    rw [hK]
  | cons c0 cRest =>
    right
    have hchange : ∀ x ∈ changeIdxsFrom 0 items, isChangeAt items x = true := by
      intro x hx
      have h2 := (mem_changeIdxsFrom items 0 x).mp hx
      simpa using h2.2
    have hc0 : isChangeAt items c0 = true := by
      refine hchange c0 ?_
      rw [hK]
      exact List.mem_cons_self c0 cRest
    have hcrest : ∀ x ∈ cRest, isChangeAt items x = true := by
      intro x hx
      refine hchange x ?_
      rw [hK]
      exact List.mem_cons_of_mem c0 hx
    have hblocks := groupRuns_inv (fun x => isChangeAt items x = true) cRest c0 c0
      hc0 hc0 (Nat.le_refl c0) hcrest
    -- the per-range invariant
    have hranges : ∀ r ∈ (groupRuns c0 c0 cRest).map
        (fun b => expandBlock items ctxN b.1 b.2),
        r.1 ≤ r.2 ∧ r.2 < items.length ∧
          ∃ c, r.1 ≤ c ∧ c ≤ r.2 ∧ isChangeAt items c = true := by
      intro r hr
      rw [List.mem_map] at hr
      obtain ⟨b, hb, hbr⟩ := hr
      obtain ⟨hb1, hb2, hb12⟩ := hblocks b hb
      have hblen : b.2 < items.length := isChangeAt_lt_length items b.2 hb2
      obtain ⟨he1, he2, he3⟩ := expandBlock_spec items ctxN b.1 b.2 hb12 hblen
      subst hbr
      exact ⟨by omega, he3, b.1, he1, by omega, hb1⟩
    have hsorted : ∀ r ∈ sortRanges ((groupRuns c0 c0 cRest).map
        (fun b => expandBlock items ctxN b.1 b.2)),
        r.1 ≤ r.2 ∧ r.2 < items.length ∧
          ∃ c, r.1 ≤ c ∧ c ≤ r.2 ∧ isChangeAt items c = true := by
      intro r hr
      exact hranges r ((mem_sortRanges r _).mp hr)
    have habs : ∀ a b : Nat × Nat,
        (a.1 ≤ a.2 ∧ a.2 < items.length ∧
          ∃ c, a.1 ≤ c ∧ c ≤ a.2 ∧ isChangeAt items c = true) →
        (b.1 ≤ b.2 ∧ b.2 < items.length ∧
          ∃ c, b.1 ≤ c ∧ c ≤ b.2 ∧ isChangeAt items c = true) →
        ((a.1, max a.2 b.2).1 ≤ (a.1, max a.2 b.2).2 ∧
          (a.1, max a.2 b.2).2 < items.length ∧
          ∃ c, (a.1, max a.2 b.2).1 ≤ c ∧ c ≤ (a.1, max a.2 b.2).2 ∧
            isChangeAt items c = true) := by
      rintro a b ⟨ha1, ha2, c, hca, hcb, hcc⟩ ⟨hb1, hb2, _⟩
      refine ⟨by simp; omega, by simp; omega, c, by simpa using hca, ?_, hcc⟩
      simp
      omega
    have hmergedQ : ∀ r ∈ mergeRanges (sortRanges ((groupRuns c0 c0 cRest).map
        (fun b => expandBlock items ctxN b.1 b.2))),
        r.1 ≤ r.2 ∧ r.2 < items.length ∧
          ∃ c, r.1 ≤ c ∧ c ≤ r.2 ∧ isChangeAt items c = true := by
      cases hS : sortRanges ((groupRuns c0 c0 cRest).map
        (fun b => expandBlock items ctxN b.1 b.2)) with
      | nil => intro r hr; simp [mergeRanges] at hr
      | cons q rest =>
        intro r hr
        simp only [mergeRanges] at hr
        refine mergeRangesAux_inv _ habs rest q ?_ ?_ r hr
        · exact hsorted q (by rw [hS]; exact List.mem_cons_self q rest)
        · intro x hx
          exact hsorted x (by rw [hS]; exact List.mem_cons_of_mem q hx)
    have hmergedChain : List.Chain' (fun a b : Nat × Nat => a.2 + 1 < b.1)
        (mergeRanges (sortRanges ((groupRuns c0 c0 cRest).map
          (fun b => expandBlock items ctxN b.1 b.2)))) := by
      cases hS : sortRanges ((groupRuns c0 c0 cRest).map
        (fun b => expandBlock items ctxN b.1 b.2)) with
      | nil => simp [mergeRanges]
      | cons q rest =>
        simp only [mergeRanges]
        exact mergeRangesAux_chain rest q
    refine ⟨mergeRanges (sortRanges ((groupRuns c0 c0 cRest).map
      (fun b => expandBlock items ctxN b.1 b.2))), hmergedChain, hmergedQ, ?_⟩
    unfold trimCore
    dsimp only
    rw [hK]
    dsimp only
    refine List.filter_eq_self.mpr ?_
    intro th hth
    rw [List.mem_map] at hth
    obtain ⟨r, hr, hrth⟩ := hth
    have hQ := hmergedQ r hr
    subst hrth
    exact seg_any_change items r hQ.2.2

/-- C2: every hunk emitted by the trimming step is internally consistent:
its oldLen counts the context and deletion items of its body, its newLen
counts the context and addition items, its body is a contiguous slice of
the classified original body, and its start offsets equal the original
header's start values advanced over all body lines before the slice
(context advancing both sides, deletions the old side, additions the new
side, meta/other neither). -/
theorem trimOneHunk_header_body_consistency (hh : HunkHeader)
    (bodyLines : List (List Char)) (ctxN : Nat) :
    ∀ th ∈ trimOneHunkStructs hh bodyLines ctxN,
      th.oldLen = th.body.countP
        (fun it => it.type == LineKind.ctx || it.type == LineKind.del) ∧
      th.newLen = th.body.countP
        (fun it => it.type == LineKind.ctx || it.type == LineKind.add) ∧
      ∃ s, s + th.body.length ≤ bodyLines.length ∧
        th.body = ((bodyLines.map classifyLine).drop s).take th.body.length ∧
        th.oldStart = hh.oldStart +
          (((bodyLines.map classifyLine).take s).map (fun it => oldDelta it.type)).sum ∧
        th.newStart = hh.newStart +
          (((bodyLines.map classifyLine).take s).map (fun it => newDelta it.type)).sum := by
  intro th hth
  unfold trimOneHunkStructs at hth
  rcases trimCore_spec hh (bodyLines.map classifyLine) ctxN with hnil | ⟨merged, _, hQ, heq⟩
  · rw [hnil] at hth
    simp at hth
  · rw [heq, List.mem_map] at hth
    obtain ⟨r, hr, hrth⟩ := hth
    obtain ⟨hr12, hrlen, _⟩ := hQ r hr
    have hblen : (bodyLines.map classifyLine).length = bodyLines.length :=
      List.length_map _ _
    subst hrth
    unfold segmentHunk
    dsimp only
    have hlen : (((bodyLines.map classifyLine).drop r.1).take (r.2 + 1 - r.1)).length =
        r.2 + 1 - r.1 := by
      rw [List.length_take, List.length_drop, hblen]
      omega
    refine ⟨sum_oldDelta_countP _, sum_newDelta_countP _, r.1, ?_, ?_, ?_, ?_⟩
    · rw [hlen]
      omega
    · rw [hlen]
    · rw [lineBefore_getD oldDelta (bodyLines.map classifyLine) hh.oldStart r.1
        (by omega)]
    · rw [lineBefore_getD newDelta (bodyLines.map classifyLine) hh.newStart r.1
        (by omega)]

/-- C2 witness: the concrete hunk of the specification scenario. -/
theorem trimOneHunk_header_body_consistency_witness :
    (⟨11, 3, 11, 4, [],
        [⟨LineKind.ctx, " ctx2".data⟩, ⟨LineKind.del, "-old3".data⟩,
         ⟨LineKind.add, "+new3".data⟩, ⟨LineKind.add, "+new3b".data⟩,
         ⟨LineKind.ctx, " ctx4".data⟩]⟩ : TrimmedHunk) ∈
      trimOneHunkStructs ⟨10, 7, 10, 8, []⟩
        [" ctx1".data, " ctx2".data, "-old3".data, "+new3".data, "+new3b".data,
         " ctx4".data, " ctx5".data, " ctx6".data, " ctx7".data] 1 ∧
    (⟨11, 3, 11, 4, [],
        [⟨LineKind.ctx, " ctx2".data⟩, ⟨LineKind.del, "-old3".data⟩,
         ⟨LineKind.add, "+new3".data⟩, ⟨LineKind.add, "+new3b".data⟩,
         ⟨LineKind.ctx, " ctx4".data⟩]⟩ : TrimmedHunk).oldLen =
      (⟨11, 3, 11, 4, [],
        [⟨LineKind.ctx, " ctx2".data⟩, ⟨LineKind.del, "-old3".data⟩,
         ⟨LineKind.add, "+new3".data⟩, ⟨LineKind.add, "+new3b".data⟩,
         ⟨LineKind.ctx, " ctx4".data⟩]⟩ : TrimmedHunk).body.countP
        (fun it => it.type == LineKind.ctx || it.type == LineKind.del) := by
  refine ⟨by decide, ?_⟩
  exact (trimOneHunk_header_body_consistency ⟨10, 7, 10, 8, []⟩
    [" ctx1".data, " ctx2".data, "-old3".data, "+new3".data, "+new3b".data,
     " ctx4".data, " ctx5".data, " ctx6".data, " ctx7".data] 1 _ (by decide)).1

/-- C10: the hunks emitted for one input hunk are, in order, the slices of
a strictly separated ascending list of index intervals over the original
body: every emitted body line list is the contiguous sub-list of the
original body lines over its interval, so lines are byte-identical, keep
their relative order, and no original line appears in two emitted hunks. -/
theorem trimOneHunk_slices (hh : HunkHeader) (bodyLines : List (List Char))
    (ctxN : Nat) :
    ∃ ivs : List (Nat × Nat),
      List.Chain' (fun a b : Nat × Nat => a.2 + 1 < b.1) ivs ∧
      (∀ r ∈ ivs, r.1 ≤ r.2 ∧ r.2 < bodyLines.length) ∧
      (trimOneHunk hh bodyLines ctxN).map Prod.snd =
        ivs.map (fun r => (bodyLines.drop r.1).take (r.2 + 1 - r.1)) := by
  have hmt : (bodyLines.map classifyLine).map Item.text = bodyLines := by
    rw [List.map_map]
    have hcomp : (Item.text ∘ classifyLine) = id := by
      funext l
      exact classifyLine_text l
    rw [hcomp, List.map_id]
  rcases trimCore_spec hh (bodyLines.map classifyLine) ctxN with hnil | ⟨merged, hchain, hQ, heq⟩
  · refine ⟨[], by simp, by simp, ?_⟩
    unfold trimOneHunk trimOneHunkStructs
    rw [hnil]
    simp
  · refine ⟨merged, hchain, ?_, ?_⟩
    · intro r hr
      have h2 := hQ r hr
      rw [List.length_map] at h2
      exact ⟨h2.1, h2.2.1⟩
    · unfold trimOneHunk trimOneHunkStructs
      rw [heq, List.map_map, List.map_map]
      refine List.map_congr_left ?_
      intro r hr
      have h2 := hQ r hr
      simp only [Function.comp]
      unfold segmentHunk
      dsimp only
      rw [List.map_take, List.map_drop, hmt]

/-- C8 witness: a NaN context width at a concrete diff text. -/
theorem reduce_invalidArgument_iff_witness :
    (reduceDiffContextJS "x" JSNum.nan = Except.error DiffError.invalidArgument ↔
      JSNum.nan.isFiniteNonneg = false) ∧
    (JSNum.nan.isFiniteNonneg = true ∨
      reduceDiffContextJS "x" JSNum.nan = reduceDiffContextJS "y" JSNum.nan) :=
  reduce_invalidArgument_iff JSNum.nan "x" "y"

/-- C4 counterexample: with one context line requested, two change blocks
separated by three (that is, two-times-one-plus-one) context lines are
emitted as two separate hunks, not merged into one. -/
theorem merge_at_2n_plus_1_cex :
    (trimOneHunkStructs ⟨1, 7, 1, 7, []⟩ (c4body 3) 1).length = 2 ∧
      (trimOneHunkStructs ⟨1, 7, 1, 7, []⟩ (c4body 3) 1).length ≠ 1 := by
  decide

/-! Computation lemmas for the two-change-block scenario. -/

theorem changeIdxsFrom_append : ∀ (l1 l2 : List Item) (i : Nat),
    changeIdxsFrom i (l1 ++ l2) =
      changeIdxsFrom i l1 ++ changeIdxsFrom (i + l1.length) l2 := by
  intro l1
  induction l1 with
  | nil => intro l2 i; simp [changeIdxsFrom]
  | cons it rest ih =>
    intro l2 i
    simp only [List.cons_append, changeIdxsFrom, List.length_cons, List.append_eq]
    by_cases h : isChangeKind it.type = true
    · rw [if_pos h, if_pos h, ih l2 (i + 1), List.cons_append,
        (by omega : i + 1 + rest.length = i + (rest.length + 1))]
    · rw [if_neg h, if_neg h, ih l2 (i + 1),
        (by omega : i + 1 + rest.length = i + (rest.length + 1))]

theorem changeIdxsFrom_replicate (it : Item) (h : isChangeKind it.type = false) :
    ∀ (g i : Nat), changeIdxsFrom i (List.replicate g it) = [] := by
  intro g
  induction g with
  | zero => intro i; simp [changeIdxsFrom]
  | succ m ih =>
    intro i
    simp only [List.replicate_succ, changeIdxsFrom, h, Bool.false_eq_true, if_false]
    exact ih (i + 1)

theorem expandRightAux_replicate_stop (ctxI : Item) (hctx : ctxI.type = LineKind.ctx)
    (N : Nat) : ∀ (m cnt j e : Nat) (tail : List Item), cnt < N → N ≤ cnt + m →
    expandRightAux N (List.replicate m ctxI ++ tail) j e cnt = j + (N - cnt) - 1 := by
  intro m
  induction m with
  | zero => intro cnt j e tail h1 h2; omega
  | succ m2 ih =>
    intro cnt j e tail h1 h2
    simp only [List.replicate_succ, List.cons_append, expandRightAux, hctx,
      List.append_eq]
    by_cases hstop : cnt + 1 ≥ N
    · rw [if_pos hstop]
      omega
    · rw [if_neg hstop]
      rw [ih (cnt + 1) (j + 1) j tail (by omega) (by omega)]
      omega

theorem expandLeftAux_replicate_stop (ctxI : Item) (hctx : ctxI.type = LineKind.ctx)
    (N : Nat) : ∀ (m cnt j s : Nat) (tail : List Item), cnt < N → N ≤ cnt + m →
    N ≤ cnt + j + 1 →
    expandLeftAux N (List.replicate m ctxI ++ tail) j s cnt = j + 1 - (N - cnt) := by
  intro m
  induction m with
  | zero => intro cnt j s tail h1 h2 h3; omega
  | succ m2 ih =>
    intro cnt j s tail h1 h2 h3
    simp only [List.replicate_succ, List.cons_append, expandLeftAux, hctx,
      List.append_eq]
    by_cases hstop : cnt + 1 ≥ N
    · rw [if_pos hstop]
      omega
    · rw [if_neg hstop]
      rw [ih (cnt + 1) (j - 1) j tail (by omega) (by omega) (by omega)]
      omega

theorem c4items_eq (g : Nat) : (c4body g).map classifyLine = c4items g := by
  have hA : classifyLine "-a".data = ⟨LineKind.del, "-a".data⟩ := rfl
  have hB : classifyLine "+b".data = ⟨LineKind.add, "+b".data⟩ := rfl
  have hC : classifyLine " c".data = ⟨LineKind.ctx, " c".data⟩ := rfl
  have hD : classifyLine "-d".data = ⟨LineKind.del, "-d".data⟩ := rfl
  have hE : classifyLine "+e".data = ⟨LineKind.add, "+e".data⟩ := rfl
  unfold c4body c4items
  simp [hA, hB, hC, hD, hE, List.map_replicate]

theorem c4_changeIdxs (g : Nat) :
    changeIdxsFrom 0 (c4items g) = [0, 1, g + 2, g + 3] := by
  have hstep : changeIdxsFrom 0 (c4items g) =
      0 :: 1 :: changeIdxsFrom 2
        (List.replicate g ⟨LineKind.ctx, " c".data⟩ ++
          [⟨LineKind.del, "-d".data⟩, ⟨LineKind.add, "+e".data⟩]) := rfl
  rw [hstep, changeIdxsFrom_append, changeIdxsFrom_replicate ⟨LineKind.ctx, " c".data⟩ rfl,
    List.length_replicate, List.nil_append]
  have hlast : changeIdxsFrom (2 + g)
      [⟨LineKind.del, "-d".data⟩, ⟨LineKind.add, "+e".data⟩] = [2 + g, 2 + g + 1] := rfl
  rw [hlast, (by omega : 2 + g = g + 2), (by omega : g + 2 + 1 = g + 3)]

theorem c4_groupRuns (g : Nat) (hg : 2 ≤ g) :
    groupRuns 0 0 [1, g + 2, g + 3] = [(0, 1), (g + 2, g + 3)] := by
  simp only [groupRuns, if_true]
  rw [if_neg (by omega : ¬(g + 2 = 1 + 1))]

theorem c4_expand_first (g N : Nat) (hN : 1 ≤ N) (hNg : N ≤ g) :
    expandBlock (c4items g) N 0 1 = (0, N + 1) := by
  unfold expandBlock c4items
  rw [Prod.mk.injEq]
  constructor
  · simp [expandLeftAux]
  · have hdrop : (((⟨LineKind.del, "-a".data⟩ : Item) :: ⟨LineKind.add, "+b".data⟩ ::
        (List.replicate g ⟨LineKind.ctx, " c".data⟩ ++
          [⟨LineKind.del, "-d".data⟩, ⟨LineKind.add, "+e".data⟩]))).drop 2 =
        List.replicate g ⟨LineKind.ctx, " c".data⟩ ++
          [⟨LineKind.del, "-d".data⟩, ⟨LineKind.add, "+e".data⟩] := rfl
    rw [hdrop, expandRightAux_replicate_stop ⟨LineKind.ctx, " c".data⟩ rfl N g 0 2 1
      _ (by omega) (by omega)]
    omega

theorem c4_expand_second (g N : Nat) (hN : 1 ≤ N) (hNg : N ≤ g) :
    expandBlock (c4items g) N (g + 2) (g + 3) = (g + 2 - N, g + 3) := by
  unfold expandBlock c4items
  rw [Prod.mk.injEq]
  constructor
  · have htake : (((⟨LineKind.del, "-a".data⟩ : Item) :: ⟨LineKind.add, "+b".data⟩ ::
        (List.replicate g ⟨LineKind.ctx, " c".data⟩ ++
          [⟨LineKind.del, "-d".data⟩, ⟨LineKind.add, "+e".data⟩]))).take (g + 2) =
        ⟨LineKind.del, "-a".data⟩ :: ⟨LineKind.add, "+b".data⟩ ::
          List.replicate g ⟨LineKind.ctx, " c".data⟩ := by
      have hg2 : g + 2 = g + 1 + 1 := by omega
      rw [hg2]
      simp only [List.take_succ_cons]
      rw [List.take_left'
        (by simp : (List.replicate g (⟨LineKind.ctx, " c".data⟩ : Item)).length = g)]
    rw [htake]
    have hrev : ((⟨LineKind.del, "-a".data⟩ : Item) :: ⟨LineKind.add, "+b".data⟩ ::
        List.replicate g ⟨LineKind.ctx, " c".data⟩).reverse =
        List.replicate g ⟨LineKind.ctx, " c".data⟩ ++
          [⟨LineKind.add, "+b".data⟩, ⟨LineKind.del, "-a".data⟩] := by
      simp [List.reverse_replicate]
    rw [hrev, expandLeftAux_replicate_stop ⟨LineKind.ctx, " c".data⟩ rfl N g 0
      (g + 2 - 1) (g + 2) _ (by omega) (by omega) (by omega)]
    omega
  · have hdrop : (((⟨LineKind.del, "-a".data⟩ : Item) :: ⟨LineKind.add, "+b".data⟩ ::
        (List.replicate g ⟨LineKind.ctx, " c".data⟩ ++
          [⟨LineKind.del, "-d".data⟩, ⟨LineKind.add, "+e".data⟩]))).drop (g + 3 + 1) =
        [] := by
      rw [List.drop_eq_nil_iff]
      simp only [List.length_cons, List.length_append, List.length_replicate,
        List.length_nil]
      omega
    rw [hdrop]
    rfl

theorem c4_isChangeAt_first (g : Nat) : isChangeAt (c4items g) 0 = true := by
  unfold isChangeAt c4items
  rfl

theorem c4_isChangeAt_second (g : Nat) : isChangeAt (c4items g) (g + 2) = true := by
  unfold isChangeAt c4items
  have hidx : (((⟨LineKind.del, "-a".data⟩ : Item) :: ⟨LineKind.add, "+b".data⟩ ::
      (List.replicate g ⟨LineKind.ctx, " c".data⟩ ++
        [⟨LineKind.del, "-d".data⟩, ⟨LineKind.add, "+e".data⟩])))[g + 2]? =
      some ⟨LineKind.del, "-d".data⟩ := by
    have h1 : g + 2 = (g + 1) + 1 := by omega
    rw [h1, List.getElem?_cons_succ]
    have h2 : g + 1 = g + 1 := rfl
    rw [show (g + 1 : Nat) = g + 1 from rfl, List.getElem?_cons_succ]
    rw [List.getElem?_append_right (by simp)]
    simp
  rw [hidx]
  rfl

/-- The trimming pipeline on the two-block body reduces to merging the two
expanded ranges. -/
theorem trim_c4_pipeline (hh : HunkHeader) (N g : Nat) (hN : 1 ≤ N) (hNg : N ≤ g)
    (hg : 2 ≤ g) :
    trimOneHunkStructs hh (c4body g) N =
      ((mergeRanges [(0, N + 1), (g + 2 - N, g + 3)]).map
        (segmentHunk hh (c4items g)
          (lineBefore hh.oldStart oldDelta (c4items g))
          (lineBefore hh.newStart newDelta (c4items g)))).filter
        (fun th => th.body.any (fun it => isChangeKind it.type)) := by
  unfold trimOneHunkStructs
  rw [c4items_eq g]
  unfold trimCore
  dsimp only
  rw [c4_changeIdxs g]
  dsimp only
  rw [c4_groupRuns g hg]
  simp only [List.map_cons, List.map_nil]
  rw [c4_expand_first g N hN hNg, c4_expand_second g N hN hNg]
  have hsort : sortRanges [(0, N + 1), (g + 2 - N, g + 3)] =
      [(0, N + 1), (g + 2 - N, g + 3)] := by
    simp only [sortRanges, insertRange]
    rw [if_pos (by omega : (0 : Nat) ≤ g + 2 - N)]
  rw [hsort]

/-- C4 amended: with context width N at least 1, two change blocks
separated by exactly 2*N context lines merge into a single output hunk,
while blocks separated by 2*N + 1 context lines are emitted as two
separate hunks (one more than the windows can bridge). -/
theorem merge_boundary (N : Nat) (hN : 1 ≤ N) (hh : HunkHeader) :
    (trimOneHunkStructs hh (c4body (2 * N)) N).length = 1 ∧
      (trimOneHunkStructs hh (c4body (2 * N + 1)) N).length = 2 := by
  constructor
  · rw [trim_c4_pipeline hh N (2 * N) hN (by omega) (by omega)]
    have hmerge : mergeRanges [(0, N + 1), (2 * N + 2 - N, 2 * N + 3)] =
        [(0, 2 * N + 3)] := by
      simp only [mergeRanges, mergeRangesAux]
      rw [if_pos (by omega : 2 * N + 2 - N ≤ N + 1 + 1)]
      have hmax : max (N + 1) (2 * N + 3) = 2 * N + 3 := by omega
      rw [hmax]
    rw [hmerge]
    simp only [List.map_cons, List.map_nil]
    have hany : ((segmentHunk hh (c4items (2 * N))
        (lineBefore hh.oldStart oldDelta (c4items (2 * N)))
        (lineBefore hh.newStart newDelta (c4items (2 * N)))
        (0, 2 * N + 3)).body).any (fun it => isChangeKind it.type) = true := by
      unfold segmentHunk
      dsimp only
      exact seg_any_change (c4items (2 * N)) (0, 2 * N + 3)
        ⟨0, by omega, by omega, c4_isChangeAt_first (2 * N)⟩
    rw [List.filter_cons, hany]
    rfl
  · rw [trim_c4_pipeline hh N (2 * N + 1) hN (by omega) (by omega)]
    have hmerge : mergeRanges [(0, N + 1), (2 * N + 1 + 2 - N, 2 * N + 1 + 3)] =
        [(0, N + 1), (N + 3, 2 * N + 4)] := by
      simp only [mergeRanges, mergeRangesAux]
      rw [if_neg (by omega : ¬(2 * N + 1 + 2 - N ≤ N + 1 + 1))]
      have h1 : 2 * N + 1 + 2 - N = N + 3 := by omega
      have h2 : 2 * N + 1 + 3 = 2 * N + 4 := by omega
      rw [h1, h2]
    rw [hmerge]
    simp only [List.map_cons, List.map_nil]
    have hany1 : ((segmentHunk hh (c4items (2 * N + 1))
        (lineBefore hh.oldStart oldDelta (c4items (2 * N + 1)))
        (lineBefore hh.newStart newDelta (c4items (2 * N + 1)))
        (0, N + 1)).body).any (fun it => isChangeKind it.type) = true := by
      unfold segmentHunk
      dsimp only
      exact seg_any_change (c4items (2 * N + 1)) (0, N + 1)
        ⟨0, by omega, by omega, c4_isChangeAt_first (2 * N + 1)⟩
    have hany2 : ((segmentHunk hh (c4items (2 * N + 1))
        (lineBefore hh.oldStart oldDelta (c4items (2 * N + 1)))
        (lineBefore hh.newStart newDelta (c4items (2 * N + 1)))
        (N + 3, 2 * N + 4)).body).any (fun it => isChangeKind it.type) = true := by
      unfold segmentHunk
      dsimp only
      refine seg_any_change (c4items (2 * N + 1)) (N + 3, 2 * N + 4)
        ⟨2 * N + 1 + 2, by omega, by omega, ?_⟩
      exact c4_isChangeAt_second (2 * N + 1)
    rw [List.filter_cons, hany1, List.filter_cons, hany2]
    rfl

/-- C4 witness: a concrete instance of the amended merge boundary. -/
theorem merge_boundary_witness :
    (1 : Nat) ≤ 1 ∧
      ((trimOneHunkStructs ⟨1, 6, 1, 6, []⟩ (c4body (2 * 1)) 1).length = 1 ∧
        (trimOneHunkStructs ⟨1, 6, 1, 6, []⟩ (c4body (2 * 1 + 1)) 1).length = 2) :=
  ⟨by decide, merge_boundary 1 (by decide) ⟨1, 6, 1, 6, []⟩⟩

/-! Facts about the depth-first host-state search. -/

theorem foldl_subset_vis {α : Type}
    (f : (Option (Nat × List PathElem) × List Nat) → α →
      (Option (Nat × List PathElem) × List Nat))
    (hstep : ∀ acc x, acc.2 ⊆ (f acc x).2) :
    ∀ (l : List α) (acc : Option (Nat × List PathElem) × List Nat),
      acc.2 ⊆ (l.foldl f acc).2 := by
  intro l
  induction l with
  | nil => intro acc x hx; exact hx
  | cons x rest ih => intro acc y hy; exact ih (f acc x) (hstep acc x hy)

theorem dfs_vis_mono (heap : Heap) (m : Nat → List PathElem → Bool) :
    ∀ (fuel : Nat) (v : JSVal) (path : List PathElem) (vis : List Nat),
      vis ⊆ (dfs heap m fuel v path vis).2 := by
  intro fuel
  induction fuel with
  | zero => intro v path vis x hx; simpa [dfs] using hx
  | succ n ih =>
    intro v path vis
    cases v with
    | prim => intro x hx; simpa [dfs] using hx
    | vnull => intro x hx; simpa [dfs] using hx
    | ref a =>
      simp only [dfs]
      cases hg : heap[a]? with
      | none => intro x hx; exact hx
      | some node =>
        by_cases hc : node.callable = true
        · simp only [hc, if_true]
          intro x hx
          exact hx
        · simp only [Bool.not_eq_true] at hc
          simp only [hc, Bool.false_eq_true, if_false]
          by_cases hv : a ∈ vis
          · simp only [hv, if_true]
            intro x hx
            exact hx
          · simp only [hv, if_false]
            by_cases hm : m a path = true
            · simp only [hm, if_true]
              intro x hx
              exact List.mem_cons_of_mem a hx
            · simp only [hm, Bool.false_eq_true, if_false]
              intro x hx
              refine foldl_subset_vis _ ?_ node.children (none, a :: vis)
                (List.mem_cons_of_mem a hx)
              intro acc pc
              cases hacc : acc.1 with
              | some r =>
                intro y hy
                exact hy
              | none =>
                intro y hy
                exact ih pc.2 (path ++ [pc.1]) acc.2 hy

theorem filter_length_mono (p q : Nat → Bool) (himp : ∀ x, p x = true → q x = true) :
    ∀ L : List Nat, (L.filter p).length ≤ (L.filter q).length := by
  intro L
  induction L with
  | nil => simp
  | cons x rest ih =>
    by_cases hx : p x = true
    · have hq := himp x hx
      simp only [List.filter_cons, hx, hq, if_true, List.length_cons]
      omega
    · simp only [Bool.not_eq_true] at hx
      simp only [List.filter_cons, hx, Bool.false_eq_true, if_false]
      cases hq : q x
      · simp only [Bool.false_eq_true, if_false]
        exact ih
      · simp only [if_true, List.length_cons]
        omega

theorem filter_length_strict (p q : Nat → Bool) (himp : ∀ x, p x = true → q x = true)
    (a : Nat) (hap : p a = false) (haq : q a = true) :
    ∀ L : List Nat, a ∈ L → (L.filter p).length < (L.filter q).length := by
  intro L
  induction L with
  | nil => intro h; simp at h
  | cons x rest ih =>
    intro hmem
    rcases List.mem_cons.mp hmem with rfl | hmem2
    · simp only [List.filter_cons, hap, haq, Bool.false_eq_true, if_false, if_true,
        List.length_cons]
      have := filter_length_mono p q himp rest
      omega
    · by_cases hx : p x = true
      · have hq := himp x hx
        simp only [List.filter_cons, hx, hq, if_true, List.length_cons]
        have := ih hmem2
        omega
      · simp only [Bool.not_eq_true] at hx
        simp only [List.filter_cons, hx, Bool.false_eq_true, if_false]
        cases hq : q x
        · simp only [Bool.false_eq_true, if_false]
          exact ih hmem2
        · simp only [if_true, List.length_cons]
          have := ih hmem2
          omega

theorem unvisited_subset_le (heap : Heap) (vis vis2 : List Nat) (h : vis ⊆ vis2) :
    unvisited heap vis2 ≤ unvisited heap vis := by
  unfold unvisited
  refine filter_length_mono _ _ ?_ (List.range heap.length)
  intro x hx
  rw [decide_eq_true_eq] at hx
  rw [decide_eq_true_eq]
  intro hmem
  exact hx (h hmem)

theorem unvisited_cons_lt (heap : Heap) (vis : List Nat) (a : Nat)
    (ha : a < heap.length) (hav : a ∉ vis) :
    unvisited heap (a :: vis) < unvisited heap vis := by
  unfold unvisited
  refine filter_length_strict _ _ ?_ a ?_ ?_ (List.range heap.length) ?_
  · intro x hx
    rw [decide_eq_true_eq] at hx
    rw [decide_eq_true_eq]
    intro hmem
    exact hx (List.mem_cons_of_mem a hmem)
  · simp
  · simp [hav]
  · exact List.mem_range.mpr ha

theorem dfs_fuel_congr (heap : Heap) (m : Nat → List PathElem → Bool) :
    ∀ (u f1 f2 : Nat) (v : JSVal) (path : List PathElem) (vis : List Nat),
      unvisited heap vis = u → unvisited heap vis < f1 → unvisited heap vis < f2 →
      dfs heap m f1 v path vis = dfs heap m f2 v path vis := by
  intro u
  induction u using Nat.strong_induction_on with
  | _ u IH =>
    intro f1 f2 v path vis hu h1 h2
    cases f1 with
    | zero => omega
    | succ a =>
      cases f2 with
      | zero => omega
      | succ b =>
        cases v with
        | prim => simp [dfs]
        | vnull => simp [dfs]
        | ref x =>
          simp only [dfs]
          cases hg : heap[x]? with
          | none => rfl
          | some node =>
            by_cases hc : node.callable = true
            · simp [hc]
            · simp only [Bool.not_eq_true] at hc
              simp only [hc, Bool.false_eq_true, if_false]
              by_cases hv : x ∈ vis
              · simp [hv]
              · simp only [hv, if_false]
                by_cases hm : m x path = true
                · simp [hm]
                · simp only [hm, Bool.false_eq_true, if_false]
                  have hxlen : x < heap.length :=
                    (List.getElem?_eq_some_iff.mp hg).1
                  have hlt : unvisited heap (x :: vis) < u := by
                    rw [← hu]
                    exact unvisited_cons_lt heap vis x hxlen hv
                  have hfold : ∀ (l : List (PathElem × JSVal))
                      (acc : Option (Nat × List PathElem) × List Nat),
                      (x :: vis) ⊆ acc.2 →
                      l.foldl (fun acc pc =>
                        match acc.1 with
                        | some _ => acc
                        | none => dfs heap m a pc.2 (path ++ [pc.1]) acc.2) acc =
                      l.foldl (fun acc pc =>
                        match acc.1 with
                        | some _ => acc
                        | none => dfs heap m b pc.2 (path ++ [pc.1]) acc.2) acc := by
                    intro l
                    induction l with
                    | nil => intro acc _; rfl
                    | cons pc rest ihl =>
                      intro acc hsub
                      simp only [List.foldl_cons]
                      cases hacc : acc.1 with
                      | some r =>
                        exact ihl acc hsub
                      | none =>
                        have hua : unvisited heap acc.2 ≤ unvisited heap (x :: vis) :=
                          unvisited_subset_le heap _ _ hsub
                        have heqd : dfs heap m a pc.2 (path ++ [pc.1]) acc.2 =
                            dfs heap m b pc.2 (path ++ [pc.1]) acc.2 :=
                          IH (unvisited heap acc.2) (by omega) a b pc.2
                            (path ++ [pc.1]) acc.2 rfl (by omega) (by omega)
                        rw [heqd]
                        refine ihl (dfs heap m b pc.2 (path ++ [pc.1]) acc.2) ?_
                        intro y hy
                        exact dfs_vis_mono heap m b pc.2 (path ++ [pc.1]) acc.2 (hsub hy)
                  exact hfold node.children (none, x :: vis) (fun y hy => hy)

theorem find?_append_none {α : Type} (p : α → Bool) :
    ∀ (l1 l2 : List α), l1.find? p = none → (l1 ++ l2).find? p = l2.find? p := by
  intro l1
  induction l1 with
  | nil => intro l2 _; rfl
  | cons x rest ih =>
    intro l2 h
    rw [List.find?_cons] at h
    cases hx : p x with
    | true => rw [hx] at h; simp at h
    | false =>
      rw [hx] at h
      rw [List.cons_append, List.find?_cons, hx]
      exact ih l2 h

theorem find?_append_some {α : Type} (p : α → Bool) :
    ∀ (l1 l2 : List α) (r : α), l1.find? p = some r → (l1 ++ l2).find? p = some r := by
  intro l1
  induction l1 with
  | nil => intro l2 r h; simp at h
  | cons x rest ih =>
    intro l2 r h
    rw [List.find?_cons] at h
    cases hx : p x with
    | true =>
      rw [hx] at h
      rw [List.cons_append, List.find?_cons, hx]
      exact h
    | false =>
      rw [hx] at h
      rw [List.cons_append, List.find?_cons, hx]
      exact ih l2 r h

theorem spec_foldl_pre (heap : Heap) (n : Nat) (path : List PathElem) :
    ∀ (l : List (PathElem × JSVal)) (acc : List (Nat × List PathElem) × List Nat),
      ∃ t, (l.foldl (fun acc pc =>
        (acc.1 ++ (specVisitOrder heap n pc.2 (path ++ [pc.1]) acc.2).1,
          (specVisitOrder heap n pc.2 (path ++ [pc.1]) acc.2).2)) acc).1 =
        acc.1 ++ t := by
  intro l
  induction l with
  | nil => intro acc; exact ⟨[], (List.append_nil acc.1).symm⟩
  | cons pc rest ih =>
    intro acc
    simp only [List.foldl_cons]
    obtain ⟨t2, ht2⟩ := ih (acc.1 ++ (specVisitOrder heap n pc.2 (path ++ [pc.1]) acc.2).1,
      (specVisitOrder heap n pc.2 (path ++ [pc.1]) acc.2).2)
    exact ⟨(specVisitOrder heap n pc.2 (path ++ [pc.1]) acc.2).1 ++ t2,
      by rw [ht2, List.append_assoc]⟩

/-- The search is a refinement of the spec-side visit order: its result is
the first pair of the depth-first enumeration satisfying the matcher, and
when there is none the visited sets agree as well. -/
theorem dfs_eq_specVisit (heap : Heap) (m : Nat → List PathElem → Bool) :
    ∀ (fuel : Nat) (v : JSVal) (path : List PathElem) (vis : List Nat),
      (dfs heap m fuel v path vis).1 =
        ((specVisitOrder heap fuel v path vis).1).find? (fun r => m r.1 r.2) ∧
      (((specVisitOrder heap fuel v path vis).1).find? (fun r => m r.1 r.2) = none →
        (dfs heap m fuel v path vis).2 = (specVisitOrder heap fuel v path vis).2) := by
  intro fuel
  induction fuel with
  | zero => intro v path vis; simp [dfs, specVisitOrder]
  | succ n ih =>
    intro v path vis
    cases v with
    | prim => simp [dfs, specVisitOrder]
    | vnull => simp [dfs, specVisitOrder]
    | ref a =>
      simp only [dfs, specVisitOrder]
      cases hg : heap[a]? with
      | none => simp
      | some node =>
        by_cases hc : node.callable = true
        · simp [hc]
        · simp only [Bool.not_eq_true] at hc
          simp only [hc, Bool.false_eq_true, if_false]
          by_cases hv : a ∈ vis
          · simp [hv]
          · simp only [hv, if_false]
            by_cases hm : m a path = true
            · simp only [hm, if_true]
              obtain ⟨t, ht⟩ := spec_foldl_pre heap n path node.children ([(a, path)], a :: vis)
              constructor
              · rw [ht]
                rw [List.cons_append, List.find?_cons, hm]
              · intro hnone
                rw [ht, List.cons_append, List.find?_cons, hm] at hnone
                simp at hnone
            · simp only [hm, Bool.false_eq_true, if_false]
              have hfold : ∀ (l : List (PathElem × JSVal))
                  (accS : List (Nat × List PathElem) × List Nat)
                  (accD : Option (Nat × List PathElem) × List Nat),
                  ((accS.1.find? (fun r => m r.1 r.2) = none ∧ accD = (none, accS.2)) ∨
                    (∃ r0, accS.1.find? (fun r => m r.1 r.2) = some r0 ∧
                      accD.1 = some r0)) →
                  (((l.foldl (fun acc pc =>
                      (acc.1 ++ (specVisitOrder heap n pc.2 (path ++ [pc.1]) acc.2).1,
                        (specVisitOrder heap n pc.2 (path ++ [pc.1]) acc.2).2))
                      accS).1.find? (fun r => m r.1 r.2) = none ∧
                    l.foldl (fun acc pc =>
                      match acc.1 with
                      | some _ => acc
                      | none => dfs heap m n pc.2 (path ++ [pc.1]) acc.2) accD =
                      (none, (l.foldl (fun acc pc =>
                        (acc.1 ++ (specVisitOrder heap n pc.2 (path ++ [pc.1]) acc.2).1,
                          (specVisitOrder heap n pc.2 (path ++ [pc.1]) acc.2).2))
                        accS).2)) ∨
                  (∃ r0, (l.foldl (fun acc pc =>
                      (acc.1 ++ (specVisitOrder heap n pc.2 (path ++ [pc.1]) acc.2).1,
                        (specVisitOrder heap n pc.2 (path ++ [pc.1]) acc.2).2))
                      accS).1.find? (fun r => m r.1 r.2) = some r0 ∧
                    (l.foldl (fun acc pc =>
                      match acc.1 with
                      | some _ => acc
                      | none => dfs heap m n pc.2 (path ++ [pc.1]) acc.2) accD).1 =
                      some r0)) := by
                intro l
                induction l with
                | nil =>
                  intro accS accD hinv
                  rcases hinv with ⟨h1, h2⟩ | ⟨r0, h1, h2⟩
                  · left
                    exact ⟨h1, h2⟩
                  · right
                    exact ⟨r0, h1, h2⟩
                | cons pc rest ihl =>
                  intro accS accD hinv
                  simp only [List.foldl_cons]
                  rcases hinv with ⟨hnone, haccD⟩ | ⟨r0, hsome, hD1⟩
                  · subst haccD
                    have hrec := ih pc.2 (path ++ [pc.1]) accS.2
                    cases hfind : ((specVisitOrder heap n pc.2 (path ++ [pc.1])
                        accS.2).1).find? (fun r => m r.1 r.2) with
                    | none =>
                      have h1 := hrec.1
                      rw [hfind] at h1
                      have h2 := hrec.2 hfind
                      have hvis : dfs heap m n pc.2 (path ++ [pc.1]) accS.2 =
                          (none, (specVisitOrder heap n pc.2 (path ++ [pc.1]) accS.2).2) := by
                        cases hd : dfs heap m n pc.2 (path ++ [pc.1]) accS.2 with
                        | mk d1 d2 =>
                          rw [hd] at h1 h2
                          simp only at h1 h2
                          rw [h1, h2]
                      refine ihl (accS.1 ++ (specVisitOrder heap n pc.2 (path ++ [pc.1])
                        accS.2).1, (specVisitOrder heap n pc.2 (path ++ [pc.1]) accS.2).2)
                        (dfs heap m n pc.2 (path ++ [pc.1]) accS.2) ?_
                      left
                      constructor
                      · exact Eq.trans (find?_append_none _ _ _ hnone) hfind
                      · rw [hvis]
                    | some r0 =>
                      have h1 := hrec.1
                      rw [hfind] at h1
                      refine ihl (accS.1 ++ (specVisitOrder heap n pc.2 (path ++ [pc.1])
                        accS.2).1, (specVisitOrder heap n pc.2 (path ++ [pc.1]) accS.2).2)
                        (dfs heap m n pc.2 (path ++ [pc.1]) accS.2) ?_
                      right
                      refine ⟨r0, ?_, h1⟩
                      rw [find?_append_none _ _ _ hnone]
                      exact hfind
                  · have hstep : (match accD.1 with
                        | some _ => accD
                        | none => dfs heap m n pc.2 (path ++ [pc.1]) accD.2) = accD := by
                      rw [hD1]
                    rw [hstep]
                    refine ihl (accS.1 ++ (specVisitOrder heap n pc.2 (path ++ [pc.1])
                      accS.2).1, (specVisitOrder heap n pc.2 (path ++ [pc.1]) accS.2).2)
                      accD ?_
                    right
                    exact ⟨r0, find?_append_some _ _ _ r0 hsome, hD1⟩
              have hres := hfold node.children ([(a, path)], a :: vis) (none, a :: vis)
                (by
                  left
                  constructor
                  · rw [List.find?_cons]
                    simp only [Bool.not_eq_true] at hm
                    rw [hm]
                    rfl
                  · rfl)
              rcases hres with ⟨h1, h2⟩ | ⟨r0, h1, h2⟩
              · constructor
                · rw [h1, h2]
                · intro _
                  rw [h2]
              · constructor
                · rw [h1, h2]
                · intro hcontra
                  rw [h1] at hcontra
                  simp at hcontra

theorem find?_key_of_mem : ∀ (l : List (PathElem × JSVal)) (pe : PathElem) (c : JSVal),
    (l.map Prod.fst).Nodup → (pe, c) ∈ l →
    (l.find? (fun pc => pc.1 == pe)).map Prod.snd = some c := by
  intro l
  induction l with
  | nil => intro pe c _ hmem; simp at hmem
  | cons hd rest ih =>
    intro pe c hnodup hmem
    rw [List.map_cons, List.nodup_cons] at hnodup
    rcases List.mem_cons.mp hmem with heq | hmem2
    · rw [List.find?_cons]
      have hbeq : (hd.1 == pe) = true := by
        rw [← heq]
        exact beq_self_eq_true pe
      rw [hbeq]
      simp [← heq]
    · rw [List.find?_cons]
      have hbeq : (hd.1 == pe) = false := by
        cases hb : hd.1 == pe with
        | false => rfl
        | true =>
          exfalso
          have heq2 : hd.1 = pe := by
            exact eq_of_beq hb
          refine hnodup.1 ?_
          rw [heq2]
          exact List.mem_map.mpr ⟨(pe, c), hmem2, rfl⟩
      rw [hbeq]
      exact ih pe c hnodup.2 hmem2

theorem lookupChild_of_mem (node : JSObject) (pe : PathElem) (c : JSVal)
    (hnodup : (node.children.map Prod.fst).Nodup) (hmem : (pe, c) ∈ node.children) :
    lookupChild node pe = some c :=
  find?_key_of_mem node.children pe c hnodup hmem

/-- Soundness of the spec-side visit order: the visited set only grows,
no address is enumerated twice, and every enumerated pair is a fresh
non-callable object reached by following its recorded path from the
entry value. -/
theorem specVisitOrder_sound (heap : Heap) (hWF : heapWF heap) :
    ∀ (fuel : Nat) (v : JSVal) (path : List PathElem) (vis : List Nat),
      vis ⊆ (specVisitOrder heap fuel v path vis).2 ∧
      ((specVisitOrder heap fuel v path vis).1.map Prod.fst).Nodup ∧
      (∀ r ∈ (specVisitOrder heap fuel v path vis).1,
        r.1 ∉ vis ∧ r.1 ∈ (specVisitOrder heap fuel v path vis).2 ∧
        (∃ node, heap[r.1]? = some node ∧ node.callable = false) ∧
        ∃ suffix, r.2 = path ++ suffix ∧
          followVal heap v suffix = some (JSVal.ref r.1)) := by
  intro fuel
  induction fuel with
  | zero =>
    intro v path vis
    refine ⟨fun x hx => hx, by simp [specVisitOrder], ?_⟩
    intro r hr
    simp [specVisitOrder] at hr
  | succ n ih =>
    intro v path vis
    cases v with
    | prim =>
      refine ⟨fun x hx => hx, by simp [specVisitOrder], ?_⟩
      intro r hr
      simp [specVisitOrder] at hr
    | vnull =>
      refine ⟨fun x hx => hx, by simp [specVisitOrder], ?_⟩
      intro r hr
      simp [specVisitOrder] at hr
    | ref a =>
      simp only [specVisitOrder]
      cases hg : heap[a]? with
      | none =>
        refine ⟨fun x hx => hx, by simp, ?_⟩
        intro r hr
        simp at hr
      | some node =>
        by_cases hc : node.callable = true
        · simp only [hc, if_true]
          refine ⟨fun x hx => hx, by simp, ?_⟩
          intro r hr
          simp at hr
        · simp only [Bool.not_eq_true] at hc
          simp only [hc, Bool.false_eq_true, if_false]
          by_cases hv : a ∈ vis
          · simp only [hv, if_true]
            refine ⟨fun x hx => hx, by simp, ?_⟩
            intro r hr
            simp at hr
          · simp only [hv, if_false]
            have hnodeMem : node ∈ heap := by
              obtain ⟨hlt, heq⟩ := List.getElem?_eq_some_iff.mp hg
              rw [← heq]
              exact List.getElem_mem hlt
            have hkeys : (node.children.map Prod.fst).Nodup := hWF node hnodeMem
            have hfold : ∀ (l : List (PathElem × JSVal)),
                (∀ pc ∈ l, pc ∈ node.children) →
                ∀ (acc : List (Nat × List PathElem) × List Nat),
                vis ⊆ acc.2 →
                (acc.1.map Prod.fst).Nodup →
                (∀ r ∈ acc.1, r.1 ∉ vis ∧ r.1 ∈ acc.2 ∧
                  (∃ nd, heap[r.1]? = some nd ∧ nd.callable = false) ∧
                  ∃ suffix, r.2 = path ++ suffix ∧
                    followVal heap (JSVal.ref a) suffix = some (JSVal.ref r.1)) →
                vis ⊆ (l.foldl (fun acc pc =>
                    (acc.1 ++ (specVisitOrder heap n pc.2 (path ++ [pc.1]) acc.2).1,
                      (specVisitOrder heap n pc.2 (path ++ [pc.1]) acc.2).2)) acc).2 ∧
                ((l.foldl (fun acc pc =>
                    (acc.1 ++ (specVisitOrder heap n pc.2 (path ++ [pc.1]) acc.2).1,
                      (specVisitOrder heap n pc.2 (path ++ [pc.1]) acc.2).2)) acc).1.map
                  Prod.fst).Nodup ∧
                (∀ r ∈ (l.foldl (fun acc pc =>
                    (acc.1 ++ (specVisitOrder heap n pc.2 (path ++ [pc.1]) acc.2).1,
                      (specVisitOrder heap n pc.2 (path ++ [pc.1]) acc.2).2)) acc).1,
                  r.1 ∉ vis ∧ r.1 ∈ (l.foldl (fun acc pc =>
                    (acc.1 ++ (specVisitOrder heap n pc.2 (path ++ [pc.1]) acc.2).1,
                      (specVisitOrder heap n pc.2 (path ++ [pc.1]) acc.2).2)) acc).2 ∧
                  (∃ nd, heap[r.1]? = some nd ∧ nd.callable = false) ∧
                  ∃ suffix, r.2 = path ++ suffix ∧
                    followVal heap (JSVal.ref a) suffix = some (JSVal.ref r.1)) := by
              intro l
              induction l with
              | nil =>
                intro _ acc h1 h2 h3
                exact ⟨h1, h2, h3⟩
              | cons pc rest ihl =>
                intro hsub acc h1 h2 h3
                simp only [List.foldl_cons]
                have hihsub := ih pc.2 (path ++ [pc.1]) acc.2
                have hmono : acc.2 ⊆ (specVisitOrder heap n pc.2 (path ++ [pc.1]) acc.2).2 :=
                  hihsub.1
                have hsubNodup := hihsub.2.1
                have hsubFacts := hihsub.2.2
                refine ihl (fun q hq => hsub q (List.mem_cons_of_mem pc hq)) _ ?_ ?_ ?_
                · exact fun x hx => hmono (h1 hx)
                · rw [List.map_append]
                  refine List.Nodup.append h2 hsubNodup ?_
                  intro x hxL hxR
                  rw [List.mem_map] at hxL hxR
                  obtain ⟨r1, hr1, hx1⟩ := hxL
                  obtain ⟨r2, hr2, hx2⟩ := hxR
                  have hin : r1.1 ∈ acc.2 := (h3 r1 hr1).2.1
                  have hout : r2.1 ∉ acc.2 := (hsubFacts r2 hr2).1
                  rw [hx1] at hin
                  rw [hx2] at hout
                  exact hout hin
                · intro r hr
                  rw [List.mem_append] at hr
                  cases hr with
                  | inl hrold =>
                    obtain ⟨ho1, ho2, ho3, ho4⟩ := h3 r hrold
                    exact ⟨ho1, hmono ho2, ho3, ho4⟩
                  | inr hrnew =>
                    obtain ⟨hn1, hn2, hn3, suffix, hs1, hs2⟩ := hsubFacts r hrnew
                    refine ⟨fun hcon => hn1 (h1 hcon), hn2, hn3,
                      pc.1 :: suffix, ?_, ?_⟩
                    · rw [hs1, List.append_assoc]
                      rfl
                    · have hlook : lookupChild node pc.1 = some pc.2 :=
                        lookupChild_of_mem node pc.1 pc.2 hkeys
                          (by
                            have : (pc.1, pc.2) = pc := rfl
                            rw [this]
                            exact hsub pc (List.mem_cons_self pc rest))
                      simp only [followVal, hg, hlook]
                      exact hs2
            refine hfold node.children (fun q hq => hq) ([(a, path)], a :: vis)
              (fun x hx => List.mem_cons_of_mem a hx) (by simp) ?_
            intro r hr
            rw [List.mem_singleton] at hr
            subst hr
            refine ⟨hv, List.mem_cons_self a vis, ⟨node, hg, hc⟩, [], ?_, rfl⟩
            rw [List.append_nil]

theorem unvisited_nil (heap : Heap) : unvisited heap [] = heap.length := by
  unfold unvisited
  rw [List.filter_eq_self.mpr]
  · exact List.length_range heap.length
  · intro x _
    simp

/-- C9: findFirstParentWhere terminates on every object graph, cyclic or
shared: its result is stable for any fuel of at least heap-size-plus-one
(the nesting depth is bounded because every level of descent marks a fresh
address in the identity-keyed visited set).  It returns the first pair of
the depth-first visit order satisfying the caller-supplied matcher (null
when none matches), each object is visited at most once, the returned path
leads from the entry value to the returned node, enumerated nodes are
never callable, and non-object values are leaves on which the search
returns immediately without descending. -/
theorem findFirstParentWhere_spec (heap : Heap) (m : Nat → List PathElem → Bool)
    (root : JSVal) (hWF : heapWF heap) :
    (∀ fuel, heap.length + 1 ≤ fuel →
      (dfs heap m fuel root [] []).1 = findFirstParentWhere heap m root) ∧
    findFirstParentWhere heap m root =
      ((specVisitOrder heap (heap.length + 1) root [] []).1).find?
        (fun r => m r.1 r.2) ∧
    (((specVisitOrder heap (heap.length + 1) root [] []).1).map Prod.fst).Nodup ∧
    (∀ r ∈ (specVisitOrder heap (heap.length + 1) root [] []).1,
      (∃ node, heap[r.1]? = some node ∧ node.callable = false) ∧
      followVal heap root r.2 = some (JSVal.ref r.1)) ∧
    (∀ fuel path vis, dfs heap m fuel JSVal.prim path vis = (none, vis) ∧
      dfs heap m fuel JSVal.vnull path vis = (none, vis)) ∧
    (∀ fuel path vis a node, heap[a]? = some node → node.callable = true →
      dfs heap m fuel (JSVal.ref a) path vis = (none, vis)) := by
  have hsound := specVisitOrder_sound heap hWF (heap.length + 1) root [] []
  refine ⟨?_, ?_, hsound.2.1, ?_, ?_, ?_⟩
  · intro fuel hfuel
    unfold findFirstParentWhere
    rw [dfs_fuel_congr heap m (unvisited heap []) fuel (heap.length + 1) root [] [] rfl
      (by rw [unvisited_nil]; omega) (by rw [unvisited_nil]; omega)]
  · exact (dfs_eq_specVisit heap m (heap.length + 1) root [] []).1
  · intro r hr
    obtain ⟨_, _, hcall, suffix, hs1, hs2⟩ := hsound.2.2 r hr
    refine ⟨hcall, ?_⟩
    rw [hs1, List.nil_append]
    exact hs2
  · intro fuel path vis
    constructor <;> cases fuel <;> simp [dfs]
  · intro fuel path vis a node hg hcall
    cases fuel with
    | zero => simp [dfs]
    | succ n => simp [dfs, hg, hcall]

/-- C9 witness: the cyclic two-object graph, searched for object 1. -/
theorem findFirstParentWhere_spec_witness :
    heapWF heap0 ∧
    ((dfs heap0 (fun a _ => a == 1) 5 (JSVal.ref 0) [] []).1 =
      findFirstParentWhere heap0 (fun a _ => a == 1) (JSVal.ref 0)) ∧
    findFirstParentWhere heap0 (fun a _ => a == 1) (JSVal.ref 0) =
      ((specVisitOrder heap0 (heap0.length + 1) (JSVal.ref 0) [] []).1).find?
        (fun r => r.1 == 1) := by
  have h := findFirstParentWhere_spec heap0 (fun a _ => a == 1) (JSVal.ref 0) (by decide)
  exact ⟨by decide, h.1 5 (by decide), h.2.1⟩

end Codex
